import Mathlib

/-!
# check-outdated-deps: version classifier and dispatch pool

A shallow embedding of `internal/parser/version.go`, `internal/worker/worker.go`
and the progress callback of `main.go`.

Go strings are modelled as `List Char` (the code points of a valid UTF-8
string).  All separators the code searches for (`"."`, `"-"`, `"v"`, the range
operators and the pre-release markers) are ASCII, so searching by byte and
searching by code point agree.
-/

namespace CheckOutdatedDeps

/-! ## Go standard library functions used by the parser -/

/-- The Go predicate `unicode.IsSpace`: the Latin-1 spaces
`'\t' '\n' '\v' '\f' '\r' ' ' U+0085 U+00A0` and the other code points with the
Unicode `White_Space` property. -/
def isSpace (c : Char) : Bool :=
  let n := c.toNat
  (0x09 ≤ n && n ≤ 0x0D) || n == 0x20 || n == 0x85 || n == 0xA0 || n == 0x1680 ||
    (0x2000 ≤ n && n ≤ 0x200A) || n == 0x2028 || n == 0x2029 || n == 0x202F ||
    n == 0x205F || n == 0x3000

/-- The Go function `strings.TrimSpace`: drop leading and trailing white space. -/
def trimSpace (s : List Char) : List Char :=
  (s.dropWhile isSpace).rdropWhile isSpace

/-- The Go function `strings.HasPrefix`. -/
def hasPrefix (s pre : List Char) : Bool :=
  pre.isPrefixOf s

/-- The Go function `strings.TrimPrefix`: `s` without the leading `pre`, or `s`
itself when it does not start with `pre`. -/
def trimPrefix (s pre : List Char) : List Char :=
  if hasPrefix s pre then s.drop pre.length else s

/-- The Go function `strings.Index`: position of the first occurrence of `sub`
in `s`, `none` standing for Go's `-1`. -/
def index (sub : List Char) : List Char → Option Nat
  | [] => if sub.isEmpty then some 0 else none
  | c :: cs =>
    if sub.isPrefixOf (c :: cs) then some 0 else (index sub cs).map (· + 1)

/-- The Go function `strings.Contains`. -/
def contains (s sub : List Char) : Bool :=
  (index sub s).isSome

/-- The Go function `unicode.ToLower`: ASCII is handled inline, every other code
point goes through the Unicode case tables, here the parameter `caseTable`. -/
def unicodeToLower (caseTable : Char → Char) (c : Char) : Char :=
  if c.toNat ≤ 0x7F then
    if 'A'.toNat ≤ c.toNat ∧ c.toNat ≤ 'Z'.toNat then Char.ofNat (c.toNat + 32) else c
  else caseTable c

/-- The Go function `strings.ToLower`: `unicode.ToLower` on every code point. -/
def toLower (caseTable : Char → Char) (s : List Char) : List Char :=
  s.map (unicodeToLower caseTable)

/-- Auxiliary for `split`: `cur` is the component read so far, reversed. -/
def splitAux (sep : Char) : List Char → List Char → List (List Char)
  | [], cur => [cur.reverse]
  | c :: cs, cur =>
    if c = sep then cur.reverse :: splitAux sep cs [] else splitAux sep cs (c :: cur)

/-- The Go function `strings.Split` for a one-character separator: the pieces
between the occurrences of `sep`, one more than there are occurrences. -/
def split (s : List Char) (sep : Char) : List (List Char) :=
  splitAux sep s []

/-- Value of a decimal digit, `none` for any other character. -/
def digitVal (c : Char) : Option Nat :=
  if '0'.toNat ≤ c.toNat ∧ c.toNat ≤ '9'.toNat then some (c.toNat - '0'.toNat) else none

/-- Read a run of decimal digits left to right onto the accumulator `acc`;
`none` when a character is not a digit. -/
def parseDigits : List Char → Nat → Option Nat
  | [], acc => some acc
  | c :: cs, acc =>
    match digitVal c with
    | none => none
    | some d => parseDigits cs (acc * 10 + d)

/-- The Go function `strconv.Atoi` on a 64-bit platform: an optional sign, then
one or more decimal digits, the value within the range of `int`.  `none` stands
for any error (`parseVersion` discards which one). -/
def atoi (s : List Char) : Option Int :=
  match s with
  | [] => none
  | c :: cs =>
    let neg := c == '-'
    let ds := if c == '-' || c == '+' then cs else c :: cs
    if ds.isEmpty then none
    else
      match parseDigits ds 0 with
      | none => none
      | some n =>
        if neg then (if n ≤ 2 ^ 63 then some (-(n : Int)) else none)
        else (if n < 2 ^ 63 then some (n : Int) else none)

/-- The verb `%d` of `fmt.Sprintf` on an `int`. -/
def fmtInt (i : Int) : List Char :=
  match i with
  | Int.ofNat n => Nat.toDigits 10 n
  | Int.negSucc n => '-' :: Nat.toDigits 10 (n + 1)

/-! ## `internal/parser/version.go` -/

/-- ANSI colour code `"\033[31m"`. -/
def Red : List Char := [Char.ofNat 27, '[', '3', '1', 'm']

/-- ANSI colour code `"\033[33m"`. -/
def Yellow : List Char := [Char.ofNat 27, '[', '3', '3', 'm']

/-- ANSI colour code `"\033[32m"`. -/
def Green : List Char := [Char.ofNat 27, '[', '3', '2', 'm']

/-- ANSI colour code `"\033[0m"`. -/
def Reset : List Char := [Char.ofNat 27, '[', '0', 'm']

/-- The type of version difference. -/
inductive VersionDiff
  | NoDiff
  | PatchDiff
  | MinorDiff
  | MajorDiff
  | CurrentIsLatest
  | LatestIsRC
  deriving DecidableEq

open VersionDiff

/-- The range operators `SanitizeVersion` looks for, in the order of the source. -/
def prefixes : List (List Char) :=
  ["^".toList, "~".toList, ">=".toList, "<=".toList, ">".toList, "<".toList, "=".toList]

/-- The loop of `SanitizeVersion`: strip the first operator of `ps` that
`version` starts with, then stop. -/
def stripFirst (version : List Char) : List (List Char) → List Char
  | [] => version
  | p :: ps => if hasPrefix version p then trimPrefix version p else stripFirst version ps

/-- The function `SanitizeVersion`. -/
def SanitizeVersion (version : List Char) : List Char :=
  trimSpace (stripFirst (trimSpace version) prefixes)

/-- The function `isReleaseCandidate`. -/
def isReleaseCandidate (caseTable : Char → Char) (version : List Char) : Bool :=
  let version := toLower caseTable version
  contains version "-rc".toList || contains version ".rc".toList ||
    contains version "-alpha".toList || contains version "-beta".toList

/-- The errors built by `parseVersion` with `fmt.Errorf`, and their wrapping by
`getVersionDiff`; each carries the string put into the message. -/
inductive VersionError
  | invalidFormat (version : List Char)
  | invalidMajor (part : List Char)
  | invalidMinor (part : List Char)
  | invalidPatch (part : List Char)
  | parsingCurrent (err : VersionError)
  | parsingLatest (err : VersionError)
  deriving DecidableEq

/-- The function `parseVersion`. -/
def parseVersion (version : List Char) : Except VersionError (Int × Int × Int) :=
  let version := trimSpace version
  let version := trimPrefix version "v".toList
  let version :=
    match index "-".toList version with
    | some idx => version.take idx
    | none => version
  match split version '.' with
  | [p0, p1, p2] =>
    match atoi p0 with
    | none => .error (.invalidMajor p0)
    | some major =>
      match atoi p1 with
      | none => .error (.invalidMinor p1)
      | some minor =>
        match atoi p2 with
        | none => .error (.invalidPatch p2)
        | some patch => .ok (major, minor, patch)
  | _ => .error (.invalidFormat version)

/-- The function `getVersionDiff`; the result is Go's pair of a `VersionDiff`
and an error (`none` for `nil`). -/
def getVersionDiff (caseTable : Char → Char) (currentVersion latestVersion : List Char) :
    VersionDiff × Option VersionError :=
  if isReleaseCandidate caseTable latestVersion then (LatestIsRC, none)
  else
    match parseVersion currentVersion with
    | .error err => (NoDiff, some (.parsingCurrent err))
    | .ok (currMajor, currMinor, currPatch) =>
      match parseVersion latestVersion with
      | .error err => (NoDiff, some (.parsingLatest err))
      | .ok (latestMajor, latestMinor, latestPatch) =>
        if currMajor = latestMajor ∧ currMinor = latestMinor ∧ currPatch = latestPatch then
          (CurrentIsLatest, none)
        else if currMajor ≠ latestMajor then (MajorDiff, none)
        else if currMinor ≠ latestMinor then (MinorDiff, none)
        else if currPatch ≠ latestPatch then (PatchDiff, none)
        else (NoDiff, none)

/-- The function `formatVersionWithHighlight`; the result is Go's pair of a
string and an error. -/
def formatVersionWithHighlight (latestVersion : List Char) (diff : VersionDiff) :
    List Char × Option VersionError :=
  match diff with
  | CurrentIsLatest =>
    match parseVersion latestVersion with
    | .error err => ([], some err)
    | .ok (major, minor, patch) =>
      (Green ++ fmtInt major ++ ".".toList ++ fmtInt minor ++ ".".toList ++ fmtInt patch ++
        Reset ++ " (up to date)".toList, none)
  | LatestIsRC => (Yellow ++ latestVersion ++ Reset ++ " (pre-release)".toList, none)
  | PatchDiff =>
    match parseVersion latestVersion with
    | .error err => ([], some err)
    | .ok (major, minor, patch) =>
      (fmtInt major ++ ".".toList ++ fmtInt minor ++ ".".toList ++ Green ++ fmtInt patch ++
        Reset, none)
  | MinorDiff =>
    match parseVersion latestVersion with
    | .error err => ([], some err)
    | .ok (major, minor, patch) =>
      (fmtInt major ++ ".".toList ++ Yellow ++ fmtInt minor ++ ".".toList ++ fmtInt patch ++
        Reset, none)
  | MajorDiff =>
    match parseVersion latestVersion with
    | .error err => ([], some err)
    | .ok (major, minor, patch) =>
      (Red ++ fmtInt major ++ ".".toList ++ fmtInt minor ++ ".".toList ++ fmtInt patch ++
        Reset, none)
  | NoDiff => (latestVersion, none)

/-- The function `FormatVersionComparison`. -/
def FormatVersionComparison (caseTable : Char → Char) (currentVersion latestVersion : List Char) :
    List Char × Option VersionError :=
  match getVersionDiff caseTable currentVersion latestVersion with
  | (_, some err) => ([], some err)
  | (diff, none) => formatVersionWithHighlight latestVersion diff


/-! ## Shapes of version strings, for stating the claims -/

/-- The string `parseVersion` splits at the dots: `version` without surrounding white
space, without one leading `v`, cut at the first `-`. -/
def strippedVersion (version : List Char) : List Char :=
  let version := trimSpace version
  let version := trimPrefix version "v".toList
  match index "-".toList version with
  | some idx => version.take idx
  | none => version

/-- One or more decimal digits and nothing else. -/
def isDigits (p : List Char) : Bool :=
  !p.isEmpty && p.all (fun c => (digitVal c).isSome)

/-- Exactly three dot-separated components, each made only of one or more decimal digits. -/
def threeDigitComponents (version : List Char) : Bool :=
  match split (strippedVersion version) '.' with
  | [p0, p1, p2] => isDigits p0 && isDigits p1 && isDigits p2
  | _ => false

/-- An optional `+` followed by one or more decimal digits and nothing else. -/
def isPlusDigits (p : List Char) : Bool :=
  match p with
  | '+' :: ds => isDigits ds
  | _ => isDigits p

/-- Exactly three dot-separated components, each an optional `+` followed by one or more
decimal digits. -/
def threePlusDigitComponents (version : List Char) : Bool :=
  match split (strippedVersion version) '.' with
  | [p0, p1, p2] => isPlusDigits p0 && isPlusDigits p1 && isPlusDigits p2
  | _ => false

/-- The decimal numeral of a natural number. -/
def decimal (n : Nat) : List Char :=
  Nat.toDigits 10 n

/-- The version string `"a.b.c"` of three natural numbers. -/
def versionString (a b c : Nat) : List Char :=
  decimal a ++ ".".toList ++ decimal b ++ ".".toList ++ decimal c

/-- The characters of a version string `"a.b.c"`: the decimal digits and the dot. -/
def verChar (x : Char) : Prop :=
  (digitVal x).isSome = true ∨ x = '.'

/-! ## `pkg/npm/types.go` -/

/-- The type `npm.PackageManager`, a string. -/
abbrev PackageManager := List Char

/-- The constant `npm.NPM`. -/
def NPM : PackageManager := "npm".toList

/-- The constant `npm.PNPM`. -/
def PNPM : PackageManager := "pnpm".toList

/-- The constant `npm.YARN`. -/
def YARN : PackageManager := "yarn".toList

/-- The type `npm.Package`. -/
structure Package where
  Name : List Char
  Version : List Char
  deriving DecidableEq

/-! ## `internal/worker/worker.go`: the lookup of one package -/

/-- A value that `json.Unmarshal` stores in an `interface{}`; `null` is the nil interface
value, the text of a number is kept as written (the code never inspects one). -/
inductive JSONValue
  | null
  | bool (b : Bool)
  | number (text : List Char)
  | string (s : List Char)
  | array (items : List JSONValue)
  | object (fields : List (List Char × JSONValue))

/-- A Go value of type `map[string]interface{}`: `none` is the nil map. -/
abbrev JSONMap := Option (List (List Char × JSONValue))

/-- Indexing a `map[string]interface{}`: the nil interface value when the map is nil or
has no such key. -/
def mapIndex (m : JSONMap) (key : List Char) : JSONValue :=
  match m with
  | none => .null
  | some fields => (fields.lookup key).getD .null

/-- Outcome of a Go function call: it returns, or it panics. -/
inductive GoResult (α : Type)
  | returned (value : α)
  | panicked
  deriving DecidableEq

/-- What lies outside the program: `exec.Cmd.CombinedOutput` of a command line (the
captured output and Go's error, `none` for `nil`) and `json.Unmarshal` into a nil
`map[string]interface{}` (the map stored, or the error message). -/
structure World where
  combinedOutput : List Char → List (List Char) → List Char × Option (List Char)
  jsonUnmarshal : List Char → Except (List Char) JSONMap

/-- The method `Pool.runCommand`; an error is its message. -/
def runCommand (w : World) (name : List Char) (args : List (List Char)) :
    Except (List Char) (List Char) :=
  match w.combinedOutput name args with
  | (output, some err) => .error ("command failed: ".toList ++ err ++ ", output: ".toList ++ output)
  | (output, none) => .ok output

/-- The method `Pool.getPackageInfo`; on an error the map returned is nil. -/
def getPackageInfo (w : World) (pkgManager : PackageManager) (pkg : Package) :
    Except (List Char) JSONMap :=
  let result : Option (Except (List Char) (List Char)) :=
    if pkgManager = NPM then
      some (runCommand w "npm".toList ["info".toList, pkg.Name, "--json".toList])
    else if pkgManager = YARN then
      some (runCommand w "yarn".toList ["npm".toList, "info".toList, pkg.Name, "--json".toList])
    else if pkgManager = PNPM then
      some (runCommand w "pnpm".toList ["info".toList, pkg.Name, "--json".toList])
    else none
  match result with
  | none => .error ("unsupported package manager: ".toList ++ pkgManager)
  | some (.error err) =>
    .error ("failed to get package info for ".toList ++ pkg.Name ++ ": ".toList ++ err)
  | some (.ok output) =>
    match w.jsonUnmarshal output with
    | .error err =>
      .error ("failed to parse package info for ".toList ++ pkg.Name ++ ": ".toList ++ err)
    | .ok data => .ok data

/-- The method `Pool.processPackage`.  After an error of `getPackageInfo` (which is only
logged) `packageInfo` is the nil map.  The type assertion `.(map[string]interface{})`
has no `ok` result, so it panics unless the value is an object; the assertion `.(string)`
has one, so a missing or non-string `latest` falls through to `return ""`. -/
def processPackage (w : World) (pkgManager : PackageManager) (pkg : Package) :
    GoResult (List Char) :=
  let packageInfo : JSONMap :=
    match getPackageInfo w pkgManager pkg with
    | .error _ => none
    | .ok data => data
  match mapIndex packageInfo "dist-tags".toList with
  | .object distTags =>
    match mapIndex (some distTags) "latest".toList with
    | .string latest => .returned latest
    | _ => .returned []
  | _ => .panicked

/-! ## `internal/worker/worker.go`: the pool -/

/-- The arguments of one call of a `ProgressCallback`. -/
structure ProgressEvent where
  pkgName : List Char
  current : List Char
  latest : List Char
  isOutdated : Bool
  count : Int
  deriving DecidableEq

/-- Where a goroutine started by `ProcessPackages` stands. -/
inductive TaskPC
  /-- Started, before `p.sem <- true`. -/
  | spawned
  /-- Holds a slot of the semaphore, before `p.processPackage(pkg)`. -/
  | acquired
  /-- After `processPackage` returned `latest`, before `atomic.AddInt64`. -/
  | processed (latest : List Char)
  /-- After `atomic.AddInt64` returned `count`, before the callback. -/
  | counted (latest : List Char) (count : Int)
  /-- After the callback (or its omission when nil), before the deferred `<-p.sem`. -/
  | notified
  /-- After `processPackage` panicked, before the deferred `<-p.sem`. -/
  | panicking
  /-- After the deferred `<-p.sem`, before the deferred `p.wg.Done()`. -/
  | released
  /-- After `p.wg.Done()`. -/
  | finished
  deriving DecidableEq

/-- A goroutine started by `ProcessPackages`: its package, the callback it was given
(`none` for nil, otherwise a name for the callback) and where it stands. -/
structure Task where
  pkg : Package
  callback : Option Nat
  pc : TaskPC
  deriving DecidableEq

/-- The type `Pool` together with the goroutines it started and the callback invocations
made so far (oldest first, each with the name of the callback invoked). -/
structure Pool where
  /-- Capacity of the channel `sem`, the value of `maxWorkers` at `NewPool`. -/
  maxWorkers : Nat
  /-- Number of values held in the channel `sem`. -/
  sem : Nat
  /-- Counter of the `sync.WaitGroup`. -/
  wg : Int
  currentCount : Int
  pkgManager : PackageManager
  tasks : List Task
  calls : List (Nat × ProgressEvent)
  /-- A goroutine has panicked: the process is about to exit. -/
  panicked : Bool

/-- The function `NewPool`; `maxWorkers` is `runtime.NumCPU() * 2`. -/
def NewPool (maxWorkers : Nat) (pkgManager : PackageManager) : Pool :=
  { maxWorkers := maxWorkers, sem := 0, wg := 0, currentCount := 0, pkgManager := pkgManager,
    tasks := [], calls := [], panicked := false }

/-- Wrap-around of `int64` arithmetic. -/
def wrapInt64 (x : Int) : Int :=
  (x + 2 ^ 63) % 2 ^ 64 - 2 ^ 63

/-- The function `atomic.AddInt64` on the counter of the pool: the new value. -/
def atomicAddInt64 (value delta : Int) : Int :=
  wrapInt64 (value + delta)

/-- The arguments a task passes to its callback: `isOutdated := pkg.Version != latest`. -/
def progressEvent (pkg : Package) (latest : List Char) (count : Int) : ProgressEvent :=
  { pkgName := pkg.Name, current := pkg.Version, latest := latest,
    isOutdated := pkg.Version != latest, count := count }

/-- One atomic step of the program around a pool. -/
inductive Action
  /-- One iteration of the loop of `ProcessPackages`: `p.wg.Add(1)` and `go func`. -/
  | spawn (pkg : Package) (callback : Option Nat)
  /-- Task `i` sends on `p.sem`. -/
  | acquire (i : Nat)
  /-- Task `i` runs `p.processPackage(pkg)` in the world `w`. -/
  | process (i : Nat) (w : World)
  /-- Task `i` runs `atomic.AddInt64(p.currentCount, 1)`. -/
  | count (i : Nat)
  /-- Task `i` calls `progressCallback` when it is not nil. -/
  | notify (i : Nat)
  /-- Task `i` runs its deferred receive from `p.sem`. -/
  | release (i : Nat)
  /-- Task `i` runs its deferred `p.wg.Done()`. -/
  | done (i : Nat)

/-- Replace the program counter of task `i`. -/
def setPC : List Task → Nat → TaskPC → List Task
  | [], _, _ => []
  | t :: ts, 0, pc => { t with pc := pc } :: ts
  | t :: ts, i + 1, pc => t :: setPC ts i pc

/-- One step: `none` when the action is not enabled in the state (the task is elsewhere
in its code, or blocked on the full semaphore). -/
def step (p : Pool) : Action → Option Pool
  | .spawn pkg callback =>
    some { p with wg := p.wg + 1,
                  tasks := p.tasks ++ [{ pkg := pkg, callback := callback, pc := .spawned }] }
  | .acquire i =>
    match p.tasks.get? i with
    | some t =>
      match t.pc with
      | .spawned =>
        if p.sem < p.maxWorkers then
          some { p with sem := p.sem + 1, tasks := setPC p.tasks i .acquired }
        else none
      | _ => none
    | none => none
  | .process i w =>
    match p.tasks.get? i with
    | some t =>
      match t.pc with
      | .acquired =>
        match processPackage w p.pkgManager t.pkg with
        | .returned latest => some { p with tasks := setPC p.tasks i (.processed latest) }
        | .panicked => some { p with tasks := setPC p.tasks i .panicking, panicked := true }
      | _ => none
    | none => none
  | .count i =>
    match p.tasks.get? i with
    | some t =>
      match t.pc with
      | .processed latest =>
        let count := atomicAddInt64 p.currentCount 1
        some { p with currentCount := count, tasks := setPC p.tasks i (.counted latest count) }
      | _ => none
    | none => none
  | .notify i =>
    match p.tasks.get? i with
    | some t =>
      match t.pc with
      | .counted latest count =>
        match t.callback with
        | some cb =>
          some { p with calls := p.calls ++ [(cb, progressEvent t.pkg latest count)],
                        tasks := setPC p.tasks i .notified }
        | none => some { p with tasks := setPC p.tasks i .notified }
      | _ => none
    | none => none
  | .release i =>
    match p.tasks.get? i with
    | some t =>
      if t.pc = .notified ∨ t.pc = .panicking then
        if 0 < p.sem then some { p with sem := p.sem - 1, tasks := setPC p.tasks i .released }
        else none
      else none
    | none => none
  | .done i =>
    match p.tasks.get? i with
    | some t =>
      match t.pc with
      | .released => some { p with wg := p.wg - 1, tasks := setPC p.tasks i .finished }
      | _ => none
    | none => none

/-- Run a schedule, an interleaving of the steps of the tasks and of the submissions. -/
def run (p : Pool) : List Action → Option Pool
  | [] => some p
  | a :: rest =>
    match step p a with
    | some q => run q rest
    | none => none

/-- The method `Pool.ProcessPackages` as the steps it contributes to a schedule: one
`spawn` for each package, in order. -/
def ProcessPackages (packages : List Package) (progressCallback : Option Nat) : List Action :=
  packages.map (fun pkg => Action.spawn pkg progressCallback)

/-- The method `Pool.Wait` can return: the counter of the wait group is zero. -/
def Pool.waitReturns (p : Pool) : Prop :=
  p.wg = 0

/-- The method `Pool.GetCurrentCount`. -/
def Pool.GetCurrentCount (p : Pool) : Int :=
  p.currentCount

/-- The method `Pool.Reset`. -/
def Pool.Reset (p : Pool) : Pool :=
  { p with currentCount := 0 }

/-- The packages submitted by a schedule, each with its callback, in order. -/
def submitted : List Action → List (Package × Option Nat)
  | [] => []
  | .spawn pkg callback :: rest => (pkg, callback) :: submitted rest
  | _ :: rest => submitted rest

/-! ## `main.go`: the variables shared by the progress callbacks -/

/-- What the progress callbacks of `main` write to: the two counters, the two lists of
table rows and the progress bar. -/
structure Report where
  outdated : Int
  outdatedDev : Int
  depRows : List (List (List Char))
  devDepRows : List (List (List Char))
  progress : Nat
  deriving DecidableEq

/-! ## Invariant of the pool -/

/-- The task has run `atomic.AddInt64`. -/
def TaskPC.hasCounted : TaskPC → Bool
  | .counted _ _ => true
  | .notified => true
  | .released => true
  | .finished => true
  | _ => false

/-- The task has passed the call of its callback. -/
def TaskPC.hasNotified : TaskPC → Bool
  | .notified => true
  | .released => true
  | .finished => true
  | _ => false

/-- The sequence value a task has obtained and not yet passed to its callback. -/
def TaskPC.held : TaskPC → List Int
  | .counted _ count => [count]
  | _ => []

/-- The task has not run `p.wg.Done()` yet. -/
def TaskPC.live (pc : TaskPC) : Bool :=
  pc != .finished

/-- Number of tasks that have run `atomic.AddInt64`. -/
def numCounted (tasks : List Task) : Nat :=
  tasks.countP (fun t => t.pc.hasCounted)

/-- The sequence values given out so far: those passed to a callback and those held. -/
def issued (p : Pool) : List Int :=
  p.calls.map (fun c => c.2.count) ++ p.tasks.flatMap (fun t => t.pc.held)

/-- Callback, name and declared version of a callback invocation. -/
def callKey (c : Nat × ProgressEvent) : Option Nat × Package :=
  (some c.1, { Name := c.2.pkgName, Version := c.2.current })

/-- Callback, name and declared version of a task. -/
def taskKey (t : Task) : Option Nat × Package :=
  (t.callback, t.pkg)

/-- The run is one the pool invariant speaks about: no goroutine has panicked, every
callback is non-nil, and the tasks are fewer than `2^63`. -/
def Pool.good (p : Pool) : Prop :=
  p.panicked = false ∧ p.tasks.length < 2 ^ 63 ∧ ∀ t ∈ p.tasks, t.callback ≠ none

/-- The invariant of the pool. -/
structure Pool.Inv (p : Pool) : Prop where
  noPanic : ∀ t ∈ p.tasks, t.pc ≠ .panicking
  count_eq : p.currentCount = (numCounted p.tasks : Int)
  wg_eq : p.wg = (p.tasks.countP (fun t => t.pc.live) : Int)
  issued_eq : (issued p : Multiset Int) =
    ((List.range' 1 (numCounted p.tasks)).map Int.ofNat : List Int)
  calls_eq : (p.calls.map callKey : Multiset (Option Nat × Package)) =
    ((p.tasks.filter (fun t => t.pc.hasNotified)).map taskKey : List (Option Nat × Package))
  outdated_eq : ∀ c ∈ p.calls, c.2.isOutdated = (c.2.current != c.2.latest)

/-! ## Concrete worlds and schedules -/

/-- A registry answer `{"dist-tags": {"latest": latest}}` as decoded by `json.Unmarshal`. -/
def distTagsLatest (latest : List Char) : JSONMap :=
  some [("dist-tags".toList, .object [("latest".toList, .string latest)])]

/-- A world in which every lookup succeeds: the command prints the package name, and the
decoder reads it as the answer `4.17.21` for `lodash` and `18.2.0` for anything else. -/
def answeringWorld : World where
  combinedOutput := fun _ args => (args.getD 1 [], none)
  jsonUnmarshal := fun output =>
    if output = "lodash".toList then .ok (distTagsLatest "4.17.21".toList)
    else .ok (distTagsLatest "18.2.0".toList)

/-- A world in which the command exits with a non-zero status. -/
def failingWorld : World where
  combinedOutput := fun _ _ => ("npm ERR! code E404".toList, some "exit status 1".toList)
  jsonUnmarshal := fun _ => .error "unexpected end of JSON input".toList

/-- Two packages submitted in one call, the second task overtaking the first at the
counter and the first overtaking the second at the callback. -/
def overtakingSchedule : List Action :=
  ProcessPackages [⟨"lodash".toList, "4.17.20".toList⟩, ⟨"react".toList, "18.2.0".toList⟩]
      (some 0) ++
    [.acquire 1, .acquire 0, .process 0 answeringWorld, .process 1 answeringWorld,
      .count 1, .count 0, .notify 0, .notify 1, .release 0, .release 1, .done 0, .done 1]

/-- The state `overtakingSchedule` ends in. -/
def overtakingFinal : Pool :=
  { maxWorkers := 2, sem := 0, wg := 0, currentCount := 2, pkgManager := NPM,
    tasks := [⟨⟨"lodash".toList, "4.17.20".toList⟩, some 0, .finished⟩,
      ⟨⟨"react".toList, "18.2.0".toList⟩, some 0, .finished⟩],
    calls := [(0, ⟨"lodash".toList, "4.17.20".toList, "4.17.21".toList, true, 2⟩),
      (0, ⟨"react".toList, "18.2.0".toList, "18.2.0".toList, false, 1⟩)],
    panicked := false }

/-- One package whose lookup fails, run up to the end of its task. -/
def failingSchedule : List Action :=
  ProcessPackages [⟨"left-pad".toList, "1.3.0".toList⟩] (some 0) ++
    [.acquire 0, .process 0 failingWorld, .release 0, .done 0]

/-- The steps of task `i` from its start to its end, its lookup made in the world `w`. -/
def taskSteps (w : World) (i : Nat) : List Action :=
  [.acquire i, .process i w, .count i, .notify i, .release i, .done i]

/-- The schedule that submits `packages` in one call and then runs the tasks one after the
other. -/
def sequentialSchedule (w : World) (packages : List Package) (cb : Nat) : List Action :=
  ProcessPackages packages (some cb) ++
    (List.range' 0 packages.length).flatMap (taskSteps w)

/-! ## `main.go`: the callbacks, called concurrently by the tasks -/

/-- Where one invocation of the closure returned by `getProgressCallback` stands.  The
closure is called by the tasks of the pool, so several invocations run at once; each
statement that touches a variable shared between them is a step of its own. -/
inductive CallbackPC
  /-- Called, before `p.Increment()`. -/
  | entered
  /-- After `p.Increment()`, before `if isOutdated`. -/
  | incremented
  /-- After `FormatVersionComparison` and the `atomic.AddInt64` on the counter, before
  `append` reads the slice variable. -/
  | counted (formattedLatest : List Char)
  /-- The slice operand of `append` has been read as `rows`; before the assignment. -/
  | loaded (formattedLatest : List Char) (rows : List (List (List Char)))
  /-- The closure has returned. -/
  | returned
  deriving DecidableEq

/-- One invocation of the closure returned by `getProgressCallback(isDevDependency)`: the
task that made it, the captured flag, the arguments and where it stands. -/
structure Frame where
  task : Nat
  isDevDependency : Bool
  event : ProgressEvent
  pc : CallbackPC
  deriving DecidableEq

/-- The next statement of an invocation of the closure in `main`, on the shared variables
`r`.  The counters are updated with `atomic.AddInt64`; the statement
`depRows = append(depRows, row)` is a read of the slice variable followed by a write of
it, with no lock around the two.  `none` when the closure has returned. -/
def callbackStep (caseTable : Char → Char) (f : Frame) (r : Report) : Option (Frame × Report) :=
  match f.pc with
  | .entered => some ({ f with pc := .incremented }, { r with progress := r.progress + 1 })
  | .incremented =>
    if f.event.isOutdated then
      let formattedLatest :=
        match FormatVersionComparison caseTable f.event.current f.event.latest with
        | (formattedVersion, none) => formattedVersion
        | (_, some _) => f.event.latest
      if f.isDevDependency then
        some ({ f with pc := .counted formattedLatest },
          { r with outdatedDev := atomicAddInt64 r.outdatedDev 1 })
      else
        some ({ f with pc := .counted formattedLatest },
          { r with outdated := atomicAddInt64 r.outdated 1 })
    else some ({ f with pc := .returned }, r)
  | .counted formattedLatest =>
    if f.isDevDependency then some ({ f with pc := .loaded formattedLatest r.devDepRows }, r)
    else some ({ f with pc := .loaded formattedLatest r.depRows }, r)
  | .loaded formattedLatest rows =>
    if f.isDevDependency then
      some ({ f with pc := .returned },
        { r with devDepRows := rows ++ [[f.event.pkgName, f.event.current, formattedLatest]] })
    else
      some ({ f with pc := .returned },
        { r with depRows := rows ++ [[f.event.pkgName, f.event.current, formattedLatest]] })
  | .returned => none

/-- The callbacks `main` passes to the pool: callback `0` is `getProgressCallback(false)`,
given with the dependencies; any other is `getProgressCallback(true)`, given with the
dev-dependencies. -/
def isDevCallback (callback : Nat) : Bool :=
  callback != 0

/-- The program `main` from `worker.NewPool` on: the pool, the variables shared by the
callbacks, and the invocations of the callbacks made so far. -/
structure Program where
  pool : Pool
  report : Report
  frames : List Frame

/-- One atomic step of `main`: a step around the pool, or the next statement of the
invocation `k` of a callback. -/
inductive ProgramAction
  | pool (a : Action)
  | callback (k : Nat)

/-- One step of the program.  A `notify` step of the pool is the call of the closure: it
opens an invocation, whose statements then run as steps of their own, interleaved with
everything else.  A task runs its deferred functions only after its callback has returned,
so `release` waits for that. -/
def programStep (caseTable : Char → Char) (s : Program) : ProgramAction → Option Program
  | .pool (.notify i) =>
    match step s.pool (.notify i) with
    | some q =>
      some { s with pool := q,
                    frames := s.frames ++ (q.calls.drop s.pool.calls.length).map
                      (fun c => { task := i, isDevDependency := isDevCallback c.1, event := c.2,
                                  pc := .entered }) }
    | none => none
  | .pool (.release i) =>
    if s.frames.all (fun f => f.task != i || f.pc == .returned) then
      match step s.pool (.release i) with
      | some q => some { s with pool := q }
      | none => none
    else none
  | .pool a =>
    match step s.pool a with
    | some q => some { s with pool := q }
    | none => none
  | .callback k =>
    match s.frames.get? k with
    | some f =>
      match callbackStep caseTable f s.report with
      | some (g, r) => some { s with report := r, frames := s.frames.set k g }
      | none => none
    | none => none

/-- Run a schedule of the program. -/
def programRun (caseTable : Char → Char) (s : Program) : List ProgramAction → Option Program
  | [] => some s
  | a :: rest =>
    match programStep caseTable s a with
    | some t => programRun caseTable t rest
    | none => none

/-- The program right after `worker.NewPool`: counters at zero, no rows. -/
def mainProgram (maxWorkers : Nat) (pkgManager : PackageManager) : Program :=
  { pool := NewPool maxWorkers pkgManager,
    report := { outdated := 0, outdatedDev := 0, depRows := [], devDepRows := [], progress := 0 },
    frames := [] }

/-- The version a task has looked up and not yet passed to its callback. -/
def TaskPC.lookedUp : TaskPC → Option (List Char)
  | .processed latest => some latest
  | .counted latest _ => some latest
  | _ => none

/-- Every looked-up version in the pool was returned by `processPackage` in a `process`
step of the history `hist`, and every callback invocation was made by a task with the
result of such a step for its package. -/
def Provenance (p : Pool) (hist : List Action) : Prop :=
  (∀ i t latest, p.tasks.get? i = some t → t.pc.lookedUp = some latest →
      ∃ w, Action.process i w ∈ hist ∧
        processPackage w p.pkgManager t.pkg = .returned latest) ∧
    ∀ c ∈ p.calls, ∃ i w t, Action.process i w ∈ hist ∧ p.tasks.get? i = some t ∧
      t.callback = some c.1 ∧ processPackage w p.pkgManager t.pkg = .returned c.2.latest ∧
      c.2 = progressEvent t.pkg c.2.latest c.2.count

/-- A world in which the registry reports `v1.2.3` as the latest version of every
package. -/
def prefixedWorld : World where
  combinedOutput := fun _ _ => ([], none)
  jsonUnmarshal := fun _ => .ok (distTagsLatest "v1.2.3".toList)

/-- The two dependencies `a` and `b`, both declared as `1.2.3`. -/
def twoDependencies : List Package :=
  [⟨"a".toList, "1.2.3".toList⟩, ⟨"b".toList, "1.2.3".toList⟩]

/-- Both tasks look up their package, obtain their sequence value and call the callback;
the two invocations then run statement by statement in turn, so that both read `depRows`
before either assigns it; at the end both tasks finish. -/
def racingSchedule : List ProgramAction :=
  (ProcessPackages twoDependencies (some 0)).map ProgramAction.pool ++
    [.pool (.acquire 0), .pool (.acquire 1), .pool (.process 0 prefixedWorld),
      .pool (.process 1 prefixedWorld), .pool (.count 0), .pool (.count 1),
      .pool (.notify 0), .pool (.notify 1),
      .callback 0, .callback 1, .callback 0, .callback 1,
      .callback 0, .callback 1, .callback 0, .callback 1,
      .pool (.release 0), .pool (.release 1), .pool (.done 0), .pool (.done 1)]

/-- The same submissions and lookups, the second callback invocation starting its
statements only after the first has returned. -/
def inTurnSchedule : List ProgramAction :=
  (ProcessPackages twoDependencies (some 0)).map ProgramAction.pool ++
    [.pool (.acquire 0), .pool (.acquire 1), .pool (.process 0 prefixedWorld),
      .pool (.process 1 prefixedWorld), .pool (.count 0), .pool (.count 1),
      .pool (.notify 0), .pool (.notify 1),
      .callback 0, .callback 0, .callback 0, .callback 0,
      .callback 1, .callback 1, .callback 1, .callback 1,
      .pool (.release 0), .pool (.release 1), .pool (.done 0), .pool (.done 1)]

/-- The table row of an up-to-date `1.2.3` for the package `name`. -/
def upToDateRow (name : List Char) : List (List Char) :=
  [name, "1.2.3".toList, Green ++ "1.2.3".toList ++ Reset ++ " (up to date)".toList]

/-- An invocation of the closure run on its own for at most `fuel` statements, no other
invocation taking a step in between: the shared variables it leaves. -/
def callbackAlone (caseTable : Char → Char) : Nat → Frame → Report → Report
  | 0, _, r => r
  | fuel + 1, f, r =>
    match callbackStep caseTable f r with
    | some (g, r1) => callbackAlone caseTable fuel g r1
    | none => r

/-! ## Lemmas on trimming -/

theorem rdropWhile_cons_of_neg {p : Char → Bool} {a : Char} (l : List Char) (h : p a = false) :
    (a :: l).rdropWhile p = a :: l.rdropWhile p := by
  induction l using List.reverseRecOn with
  | nil => simp [List.rdropWhile_singleton, h]
  | append_singleton t x _ =>
    by_cases hx : p x = true
    · have h1 : (a :: (t ++ [x])) = (a :: t) ++ [x] := rfl
      rw [h1, List.rdropWhile_concat_pos _ _ _ hx, List.rdropWhile_concat_pos _ _ _ hx]
      assumption
    · have h1 : (a :: (t ++ [x])) = (a :: t) ++ [x] := rfl
      rw [h1, List.rdropWhile_concat_neg _ _ _ hx, List.rdropWhile_concat_neg _ _ _ hx]
      rfl

theorem rdropWhile_cons_of_pos {p : Char → Bool} {a : Char} (l : List Char) (h : p a = true) :
    (a :: l).rdropWhile p = if l.rdropWhile p = [] then [] else a :: l.rdropWhile p := by
  induction l using List.reverseRecOn with
  | nil => simp [List.rdropWhile_singleton, h]
  | append_singleton t x ih =>
    have h1 : (a :: (t ++ [x])) = (a :: t) ++ [x] := rfl
    by_cases hx : p x = true
    · rw [h1, List.rdropWhile_concat_pos _ _ _ hx, List.rdropWhile_concat_pos _ _ _ hx]
      exact ih
    · rw [h1, List.rdropWhile_concat_neg _ _ _ hx, List.rdropWhile_concat_neg _ _ _ hx]
      simp

theorem dropWhile_rdropWhile_comm (p : Char → Bool) (l : List Char) :
    (l.rdropWhile p).dropWhile p = (l.dropWhile p).rdropWhile p := by
  induction l with
  | nil => simp
  | cons a t ih =>
    by_cases ha : p a = true
    · rw [rdropWhile_cons_of_pos t ha, List.dropWhile_cons_of_pos ha, ← ih]
      by_cases ht : t.rdropWhile p = []
      · simp [ht]
      · simp [ht, ha]
    · have ha' : p a = false := by simpa using ha
      rw [rdropWhile_cons_of_neg t ha', List.dropWhile_cons_of_neg ha,
        List.dropWhile_cons_of_neg ha, rdropWhile_cons_of_neg t ha']

theorem trimSpace_idem (s : List Char) : trimSpace (trimSpace s) = trimSpace s := by
  unfold trimSpace
  rw [dropWhile_rdropWhile_comm, List.dropWhile_idempotent, List.rdropWhile_idempotent]

theorem trimSpace_length_le (s : List Char) : (trimSpace s).length ≤ s.length := by
  unfold trimSpace
  exact le_trans (List.rdropWhile_prefix isSpace _).length_le (List.dropWhile_suffix isSpace).length_le


/-! ## Lemmas on `SanitizeVersion` -/

theorem stripFirst_of_no_prefix (s : List Char) (ps : List (List Char))
    (h : ∀ p ∈ ps, hasPrefix s p = false) : stripFirst s ps = s := by
  induction ps with
  | nil => rfl
  | cons p ps ih =>
    have hp : hasPrefix s p = false := h p (List.mem_cons_self _ _)
    simp only [stripFirst, hp]
    exact ih (fun q hq => h q (List.mem_cons_of_mem _ hq))

theorem stripFirst_length_lt (s : List Char) (ps : List (List Char)) (hne : ∀ p ∈ ps, p ≠ [])
    (h : ∃ p ∈ ps, hasPrefix s p = true) : (stripFirst s ps).length < s.length := by
  induction ps with
  | nil => obtain ⟨p, hp, _⟩ := h; cases hp
  | cons p ps ih =>
    by_cases hp : hasPrefix s p = true
    · have hpre : p <+: s := List.isPrefixOf_iff_prefix.mp hp
      have hlen : 0 < p.length := List.length_pos.mpr (hne p (List.mem_cons_self _ _))
      have hle : p.length ≤ s.length := hpre.length_le
      simp only [stripFirst, hp, trimPrefix, if_true, List.length_drop]
      omega
    · have hp' : hasPrefix s p = false := by simpa using hp
      simp only [stripFirst, hp']
      apply ih (fun q hq => hne q (List.mem_cons_of_mem _ hq))
      obtain ⟨q, hq, hqs⟩ := h
      rcases List.mem_cons.mp hq with rfl | hq
      · exact absurd hqs hp
      · exact ⟨q, hq, hqs⟩

theorem prefixes_ne_nil : ∀ p ∈ prefixes, p ≠ [] := by decide

/-! ## Claims on `SanitizeVersion` -/

/-- C6 (as stated, refuted): `SanitizeVersion` is not idempotent on `"^^1.2.3"`: the
first application yields `"^1.2.3"`, the second `"1.2.3"`. -/
theorem SanitizeVersion_not_idempotent :
    SanitizeVersion "^^1.2.3".toList = "^1.2.3".toList ∧
      SanitizeVersion (SanitizeVersion "^^1.2.3".toList) = "1.2.3".toList ∧
      SanitizeVersion (SanitizeVersion "^^1.2.3".toList) ≠ SanitizeVersion "^^1.2.3".toList := by
  decide

/-- C6 (amended): applying `SanitizeVersion` twice gives the same result as applying it
once exactly when the result of the first application does not itself begin with one of
the range operators. -/
theorem SanitizeVersion_idempotent_iff (s : List Char) :
    SanitizeVersion (SanitizeVersion s) = SanitizeVersion s ↔
      ∀ p ∈ prefixes, hasPrefix (SanitizeVersion s) p = false := by
  constructor
  · intro h p hp
    by_contra hcon
    have hpre : hasPrefix (SanitizeVersion s) p = true := by simpa using hcon
    have h1 : (SanitizeVersion (SanitizeVersion s)).length < (SanitizeVersion s).length := by
      calc (SanitizeVersion (SanitizeVersion s)).length
          ≤ (stripFirst (trimSpace (SanitizeVersion s)) prefixes).length :=
            trimSpace_length_le _
        _ = (stripFirst (SanitizeVersion s) prefixes).length := by
            rw [show trimSpace (SanitizeVersion s) = SanitizeVersion s from trimSpace_idem _]
        _ < (SanitizeVersion s).length :=
            stripFirst_length_lt _ _ prefixes_ne_nil ⟨p, hp, hpre⟩
    rw [h] at h1
    exact lt_irrefl _ h1
  · intro h
    have ht : trimSpace (SanitizeVersion s) = SanitizeVersion s := trimSpace_idem _
    show trimSpace (stripFirst (trimSpace (SanitizeVersion s)) prefixes) = SanitizeVersion s
    rw [ht, stripFirst_of_no_prefix _ _ h, ht]

/-- C6 (witness of the amended claim): `SanitizeVersion ">=1.2.3"` is `"1.2.3"`, which begins
with no operator, so a second application changes nothing. -/
theorem SanitizeVersion_idempotent_iff_witness :
    SanitizeVersion (SanitizeVersion ">=1.2.3".toList) = SanitizeVersion ">=1.2.3".toList :=
  (SanitizeVersion_idempotent_iff ">=1.2.3".toList).mpr (by decide)

theorem index_isSome_iff (sub s : List Char) : (index sub s).isSome = true ↔ sub <:+: s := by
  induction s with
  | nil =>
    cases sub with
    | nil => simp [index]
    | cons a t => simp [index]
  | cons c cs ih =>
    rw [List.infix_cons_iff]
    by_cases hp : sub.isPrefixOf (c :: cs) = true
    · simp only [index, hp, if_true, Option.isSome_some, true_iff]
      exact Or.inl (List.isPrefixOf_iff_prefix.mp hp)
    · have hp' : ¬ sub <+: c :: cs := fun h => hp (List.isPrefixOf_iff_prefix.mpr h)
      simp only [index, hp, Option.isSome_map', hp', false_or]
      simpa using ih

theorem contains_iff (s sub : List Char) : contains s sub = true ↔ sub <:+: s :=
  index_isSome_iff sub s

theorem isReleaseCandidate_iff (caseTable : Char → Char) (version : List Char) :
    isReleaseCandidate caseTable version = true ↔
      ("-rc".toList <:+: toLower caseTable version ∨ ".rc".toList <:+: toLower caseTable version ∨
        "-alpha".toList <:+: toLower caseTable version ∨
        "-beta".toList <:+: toLower caseTable version) := by
  simp only [isReleaseCandidate, Bool.or_eq_true, contains_iff, or_assoc]

/-! ## Claims on classification and rendering -/

/-- C2: when the lower-cased `latest` contains one of the markers `-rc`, `.rc`, `-alpha`,
`-beta`, `getVersionDiff` returns `LatestIsRC` with no error, whatever `current` is. -/
theorem getVersionDiff_prerelease (caseTable : Char → Char) (current latest : List Char)
    (h : "-rc".toList <:+: toLower caseTable latest ∨ ".rc".toList <:+: toLower caseTable latest ∨
      "-alpha".toList <:+: toLower caseTable latest ∨
      "-beta".toList <:+: toLower caseTable latest) :
    getVersionDiff caseTable current latest = (LatestIsRC, none) := by
  have hrc := (isReleaseCandidate_iff caseTable latest).mpr h
  simp [getVersionDiff, hrc]

/-- C2 (witness): `"1.2.3"` against `"1.2.3-rc"`, whose numeric parts are equal. -/
theorem getVersionDiff_prerelease_witness :
    getVersionDiff id "1.2.3".toList "1.2.3-rc".toList = (LatestIsRC, none) :=
  getVersionDiff_prerelease id "1.2.3".toList "1.2.3-rc".toList
    (Or.inl ⟨"1.2.3".toList, [], by decide⟩)

theorem formatVersionWithHighlight_ok (latest : List Char) (diff : VersionDiff)
    (v : Int × Int × Int) (h : parseVersion latest = .ok v) :
    (formatVersionWithHighlight latest diff).2 = none := by
  obtain ⟨a, b, c⟩ := v
  cases diff <;> simp [formatVersionWithHighlight, h]

/-- C10: `FormatVersionComparison` returns an error exactly when `getVersionDiff` does, and
`getVersionDiff` never returns `NoDiff` without an error. -/
theorem FormatVersionComparison_error_iff (caseTable : Char → Char) (current latest : List Char) :
    ((FormatVersionComparison caseTable current latest).2 = none ↔
        (getVersionDiff caseTable current latest).2 = none) ∧
      getVersionDiff caseTable current latest ≠ (NoDiff, none) := by
  unfold FormatVersionComparison getVersionDiff
  by_cases hrc : isReleaseCandidate caseTable latest = true
  · simp [hrc, formatVersionWithHighlight]
  · simp only [hrc, Bool.false_eq_true, if_false]
    cases hc : parseVersion current with
    | error e => simp
    | ok vc =>
      obtain ⟨a, b, c⟩ := vc
      cases hl : parseVersion latest with
      | error e => simp
      | ok vl =>
        obtain ⟨d, e, f⟩ := vl
        have hfmt := fun diff => formatVersionWithHighlight_ok latest diff (d, e, f) hl
        by_cases h1 : a = d ∧ b = e ∧ c = f
        · simp [h1, hfmt]
        · by_cases h2 : a = d
          · by_cases h3 : b = e
            · have h4 : c ≠ f := fun h => h1 ⟨h2, h3, h⟩
              simp [h2, h3, h4, hfmt]
            · simp [h2, h3, hfmt]
          · simp [h2, hfmt]

/-- C8: for a `latest` that parses to `(a, b, c)` the rendering succeeds, with only the patch
inside the green codes for `PatchDiff`, minor and patch inside the yellow codes for
`MinorDiff`, the whole version inside the red codes for `MajorDiff`, the whole version in
green followed by `" (up to date)"` for `CurrentIsLatest`; for every string, `LatestIsRC`
shows it unparsed in yellow followed by `" (pre-release)"` and `NoDiff` returns it unchanged;
and `FormatVersionComparison "4.17.20" "4.17.21"` puts only `21` inside the green codes. -/
theorem formatVersionWithHighlight_spec (latest : List Char) (a b c : Int)
    (h : parseVersion latest = .ok (a, b, c)) :
    formatVersionWithHighlight latest PatchDiff =
        (fmtInt a ++ ".".toList ++ fmtInt b ++ ".".toList ++ Green ++ fmtInt c ++ Reset, none) ∧
      formatVersionWithHighlight latest MinorDiff =
        (fmtInt a ++ ".".toList ++ Yellow ++ fmtInt b ++ ".".toList ++ fmtInt c ++ Reset, none) ∧
      formatVersionWithHighlight latest MajorDiff =
        (Red ++ fmtInt a ++ ".".toList ++ fmtInt b ++ ".".toList ++ fmtInt c ++ Reset, none) ∧
      formatVersionWithHighlight latest CurrentIsLatest =
        (Green ++ fmtInt a ++ ".".toList ++ fmtInt b ++ ".".toList ++ fmtInt c ++ Reset ++
          " (up to date)".toList, none) ∧
      (∀ raw : List Char, formatVersionWithHighlight raw LatestIsRC =
        (Yellow ++ raw ++ Reset ++ " (pre-release)".toList, none)) ∧
      (∀ raw : List Char, formatVersionWithHighlight raw NoDiff = (raw, none)) ∧
      (∀ caseTable : Char → Char,
        FormatVersionComparison caseTable "4.17.20".toList "4.17.21".toList =
          ("4.17.".toList ++ Green ++ "21".toList ++ Reset, none)) := by
  refine ⟨?_, ?_, ?_, ?_, ?_, ?_, ?_⟩
  · simp only [formatVersionWithHighlight, h]
  · simp only [formatVersionWithHighlight, h]
  · simp only [formatVersionWithHighlight, h]
  · simp only [formatVersionWithHighlight, h]
  · intro raw; rfl
  · intro raw; rfl
  · intro caseTable; rfl

/-- C8 (witness): `"v10.20.30"` parses to `(10, 20, 30)`; its patch rendering is
`"10.20."` followed by `30` inside the green codes. -/
theorem formatVersionWithHighlight_spec_witness :
    formatVersionWithHighlight "v10.20.30".toList PatchDiff =
      ("10.20.".toList ++ Green ++ "30".toList ++ Reset, none) :=
  (formatVersionWithHighlight_spec "v10.20.30".toList 10 20 30 rfl).1


/-! ## Lemmas on decimal numerals -/

theorem digitVal_digitChar (m : Nat) (h : m < 10) : digitVal (Nat.digitChar m) = some m := by
  interval_cases m <;> rfl

theorem parseDigits_append (xs ys : List Char) (acc : Nat) :
    parseDigits (xs ++ ys) acc = (parseDigits xs acc).bind (parseDigits ys) := by
  induction xs generalizing acc with
  | nil => rfl
  | cons x xs ih =>
    simp only [List.cons_append, parseDigits]
    cases digitVal x with
    | none => rfl
    | some d => exact ih _

theorem toDigitsCore_spec (fuel : Nat) : ∀ (n : Nat) (rest : List Char), n < fuel →
    ∃ ds : List Char, Nat.toDigitsCore 10 fuel n rest = ds ++ rest ∧ ds ≠ [] ∧
      (∀ x ∈ ds, (digitVal x).isSome = true) ∧
      ∀ acc, parseDigits ds acc = some (acc * 10 ^ ds.length + n) := by
  induction fuel with
  | zero => intro n rest h; omega
  | succ fuel ih =>
    intro n rest hn
    have hmod : n % 10 < 10 := Nat.mod_lt _ (by decide)
    by_cases hq : n / 10 = 0
    · refine ⟨[Nat.digitChar (n % 10)], ?_, by simp, ?_, ?_⟩
      · simp [Nat.toDigitsCore, hq]
      · intro x hx
        rw [List.mem_singleton.mp hx, digitVal_digitChar _ hmod]; rfl
      · intro acc
        simp only [parseDigits, digitVal_digitChar _ hmod, List.length_singleton, pow_one]
        congr 1
        omega
    · obtain ⟨ds, hds, _, hdig, hval⟩ := ih (n / 10) (Nat.digitChar (n % 10) :: rest) (by omega)
      refine ⟨ds ++ [Nat.digitChar (n % 10)], ?_, by simp, ?_, ?_⟩
      · simp [Nat.toDigitsCore, hq, hds]
      · intro x hx
        rcases List.mem_append.mp hx with hx | hx
        · exact hdig x hx
        · rw [List.mem_singleton.mp hx, digitVal_digitChar _ hmod]; rfl
      · intro acc
        rw [parseDigits_append, hval]
        simp only [Option.some_bind, parseDigits, digitVal_digitChar _ hmod, List.length_append,
          List.length_singleton, pow_succ]
        congr 1
        nlinarith [Nat.div_add_mod n 10]

theorem decimal_spec (n : Nat) :
    decimal n ≠ [] ∧ (∀ x ∈ decimal n, (digitVal x).isSome = true) ∧
      parseDigits (decimal n) 0 = some n := by
  obtain ⟨ds, hds, hne, hdig, hval⟩ := toDigitsCore_spec (n + 1) n [] (Nat.lt_succ_self n)
  have h : decimal n = ds := by simpa [decimal, Nat.toDigits] using hds
  rw [h]
  exact ⟨hne, hdig, by simpa using hval 0⟩


/-! ## Lemmas on strings of digits and dots -/

theorem digitVal_isSome_bounds {x : Char} (h : (digitVal x).isSome = true) :
    48 ≤ x.toNat ∧ x.toNat ≤ 57 := by
  unfold digitVal at h
  split at h
  · assumption
  · cases h

theorem verChar_bounds {x : Char} (h : verChar x) : 46 ≤ x.toNat ∧ x.toNat ≤ 57 := by
  rcases h with h | rfl
  · have := digitVal_isSome_bounds h
    omega
  · decide

theorem verChar_ne {x c : Char} (h : verChar x) (hc : c.toNat < 46 ∨ 57 < c.toNat) : x ≠ c := by
  intro e
  have := verChar_bounds h
  rw [e] at this
  omega

theorem verChar_not_space {x : Char} (h : verChar x) : isSpace x = false := by
  have hb := verChar_bounds h
  simp only [isSpace, Bool.or_eq_false_iff, Bool.and_eq_false_iff, decide_eq_false_iff_not,
    beq_eq_false_iff_ne, ne_eq]
  omega

theorem verChar_toLower (caseTable : Char → Char) {x : Char} (h : verChar x) :
    unicodeToLower caseTable x = x := by
  have hb := verChar_bounds h
  have h1 : x.toNat ≤ 0x7F := by omega
  have h2 : ¬ ('A'.toNat ≤ x.toNat ∧ x.toNat ≤ 'Z'.toNat) := by
    have : 'A'.toNat = 65 := rfl
    omega
  simp only [unicodeToLower, h1, h2, if_true, if_false]

theorem trimSpace_eq_self {s : List Char} (h : ∀ x ∈ s, isSpace x = false) :
    trimSpace s = s := by
  have h1 : s.dropWhile isSpace = s := by
    rw [List.dropWhile_eq_self_iff]
    intro hl
    have := h _ (List.get_mem s 0 hl)
    simpa using this
  unfold trimSpace
  rw [h1, List.rdropWhile_eq_self_iff]
  intro hl
  simp [h _ (List.getLast_mem hl)]

theorem trimPrefix_eq_self {s : List Char} {c : Char} (h : c ∉ s) : trimPrefix s [c] = s := by
  have hp : hasPrefix s [c] = false := by
    cases hh : hasPrefix s [c] with
    | false => rfl
    | true =>
      exact absurd ((List.isPrefixOf_iff_prefix.mp hh).subset (List.mem_singleton_self c)) h
  simp [trimPrefix, hp]

theorem contains_eq_false {s sub : List Char} {c : Char} (hc : c ∈ sub) (h : c ∉ s) :
    contains s sub = false := by
  cases hh : contains s sub with
  | false => rfl
  | true => exact absurd (((contains_iff s sub).mp hh).subset hc) h

theorem index_eq_none {s sub : List Char} {c : Char} (hc : c ∈ sub) (h : c ∉ s) :
    index sub s = none := by
  have := contains_eq_false hc h
  simpa [contains] using this

theorem splitAux_no_sep (sep : Char) (ds cur : List Char) (h : sep ∉ ds) :
    splitAux sep ds cur = [cur.reverse ++ ds] := by
  induction ds generalizing cur with
  | nil => simp [splitAux]
  | cons x xs ih =>
    have hx : x ≠ sep := fun e => h (e ▸ List.mem_cons_self _ _)
    simp only [splitAux, hx, if_false]
    rw [ih _ (fun hm => h (List.mem_cons_of_mem _ hm))]
    simp

theorem splitAux_append (sep : Char) (ds rest cur : List Char) (h : sep ∉ ds) :
    splitAux sep (ds ++ sep :: rest) cur = (cur.reverse ++ ds) :: splitAux sep rest [] := by
  induction ds generalizing cur with
  | nil => simp [splitAux]
  | cons x xs ih =>
    have hx : x ≠ sep := fun e => h (e ▸ List.mem_cons_self _ _)
    show splitAux sep (x :: (xs ++ sep :: rest)) cur = _
    simp only [splitAux, hx, if_false]
    rw [ih _ (fun hm => h (List.mem_cons_of_mem _ hm))]
    simp

theorem decimal_verChar (n : Nat) : ∀ x ∈ decimal n, verChar x :=
  fun x hx => Or.inl ((decimal_spec n).2.1 x hx)

theorem decimal_no_dot (n : Nat) : '.' ∉ decimal n := by
  intro h
  have := digitVal_isSome_bounds ((decimal_spec n).2.1 _ h)
  revert this
  decide

theorem versionString_verChar (a b c : Nat) : ∀ x ∈ versionString a b c, verChar x := by
  intro x hx
  simp only [versionString, List.mem_append] at hx
  rcases hx with (((hx | hx) | hx) | hx) | hx
  · exact decimal_verChar a x hx
  · exact Or.inr (by simpa using hx)
  · exact decimal_verChar b x hx
  · exact Or.inr (by simpa using hx)
  · exact decimal_verChar c x hx

theorem versionString_not_mem (a b c : Nat) {y : Char} (hy : y.toNat < 46 ∨ 57 < y.toNat) :
    y ∉ versionString a b c :=
  fun h => verChar_ne (versionString_verChar a b c y h) hy rfl

theorem atoi_decimal (n : Nat) (hn : n < 2 ^ 63) : atoi (decimal n) = some (n : Int) := by
  obtain ⟨hne, hdig, hval⟩ := decimal_spec n
  cases hd : decimal n with
  | nil => exact absurd hd hne
  | cons x t =>
    rw [hd] at hdig hval
    have hb := digitVal_isSome_bounds (hdig x (List.mem_cons_self _ _))
    have h1 : (x == '-') = false := by
      rw [beq_eq_false_iff_ne]; intro e; rw [e] at hb; revert hb; decide
    have h2 : (x == '+') = false := by
      rw [beq_eq_false_iff_ne]; intro e; rw [e] at hb; revert hb; decide
    have hn' : n < 9223372036854775808 := by simpa using hn
    simp [atoi, h1, h2, hval, hn']

theorem split_versionString (a b c : Nat) :
    split (versionString a b c) '.' = [decimal a, decimal b, decimal c] := by
  have h : versionString a b c = decimal a ++ '.' :: (decimal b ++ '.' :: decimal c) := by
    simp [versionString]
  rw [h, split, splitAux_append _ _ _ _ (decimal_no_dot a),
    splitAux_append _ _ _ _ (decimal_no_dot b), splitAux_no_sep _ _ _ (decimal_no_dot c)]
  simp

theorem strippedVersion_versionString (a b c : Nat) :
    strippedVersion (versionString a b c) = versionString a b c := by
  have hs : trimSpace (versionString a b c) = versionString a b c :=
    trimSpace_eq_self (fun x hx => verChar_not_space (versionString_verChar a b c x hx))
  have hv : trimPrefix (versionString a b c) "v".toList = versionString a b c :=
    trimPrefix_eq_self (versionString_not_mem a b c (by decide))
  have hi : index "-".toList (versionString a b c) = none :=
    index_eq_none (List.mem_singleton_self _) (versionString_not_mem a b c (by decide))
  simp only [strippedVersion, hs, hv, hi]

theorem parseVersion_eq (version : List Char) :
    parseVersion version =
      match split (strippedVersion version) '.' with
      | [p0, p1, p2] =>
        match atoi p0 with
        | none => .error (.invalidMajor p0)
        | some major =>
          match atoi p1 with
          | none => .error (.invalidMinor p1)
          | some minor =>
            match atoi p2 with
            | none => .error (.invalidPatch p2)
            | some patch => .ok (major, minor, patch)
      | _ => .error (.invalidFormat (strippedVersion version)) := rfl

theorem parseVersion_versionString (a b c : Nat) (ha : a < 2 ^ 63) (hb : b < 2 ^ 63)
    (hc : c < 2 ^ 63) :
    parseVersion (versionString a b c) = .ok ((a : Int), (b : Int), (c : Int)) := by
  rw [parseVersion_eq, strippedVersion_versionString, split_versionString]
  simp only [atoi_decimal _ ha, atoi_decimal _ hb, atoi_decimal _ hc]

theorem isReleaseCandidate_versionString (caseTable : Char → Char) (a b c : Nat) :
    isReleaseCandidate caseTable (versionString a b c) = false := by
  have hl : toLower caseTable (versionString a b c) = versionString a b c := by
    unfold toLower
    conv_rhs => rw [← List.map_id (versionString a b c)]
    exact List.map_congr_left
      (fun x hx => verChar_toLower caseTable (versionString_verChar a b c x hx))
  have hm : '-' ∉ versionString a b c := versionString_not_mem a b c (by decide)
  have hr : 'r' ∉ versionString a b c := versionString_not_mem a b c (by decide)
  simp only [isReleaseCandidate, hl, contains_eq_false (show '-' ∈ "-rc".toList by decide) hm,
    contains_eq_false (show 'r' ∈ ".rc".toList by decide) hr,
    contains_eq_false (show '-' ∈ "-alpha".toList by decide) hm,
    contains_eq_false (show '-' ∈ "-beta".toList by decide) hm, Bool.or_self]

/-- C1: for `a, b, c, d, e, f` below `2^63`, `getVersionDiff` on `"a.b.c"` and `"d.e.f"`
returns no error and `CurrentIsLatest` when the three components agree, otherwise the
severity of the most significant differing component. -/
theorem getVersionDiff_decimal (caseTable : Char → Char) (a b c d e f : Nat)
    (ha : a < 2 ^ 63) (hb : b < 2 ^ 63) (hc : c < 2 ^ 63)
    (hd : d < 2 ^ 63) (he : e < 2 ^ 63) (hf : f < 2 ^ 63) :
    getVersionDiff caseTable (versionString a b c) (versionString d e f) =
      (if a = d ∧ b = e ∧ c = f then CurrentIsLatest
        else if a ≠ d then MajorDiff
        else if b ≠ e then MinorDiff
        else PatchDiff, none) := by
  simp only [getVersionDiff, isReleaseCandidate_versionString,
    parseVersion_versionString _ _ _ ha hb hc, parseVersion_versionString _ _ _ hd he hf,
    Nat.cast_inj, Bool.false_eq_true, if_false]
  by_cases h1 : a = d ∧ b = e ∧ c = f
  · simp [h1]
  · by_cases h2 : a = d
    · by_cases h3 : b = e
      · have h4 : c ≠ f := fun h => h1 ⟨h2, h3, h⟩
        simp [h2, h3, h4]
      · simp [h2, h3]
    · simp [h2]

/-- C1 (witness): `"1.2.3"` against `"1.2.4"` is a patch difference. -/
theorem getVersionDiff_decimal_witness :
    versionString 1 2 3 = "1.2.3".toList ∧ versionString 1 2 4 = "1.2.4".toList ∧
      getVersionDiff id "1.2.3".toList "1.2.4".toList = (PatchDiff, none) :=
  ⟨by decide, by decide,
    getVersionDiff_decimal id 1 2 3 1 2 4 (by decide) (by decide) (by decide) (by decide)
      (by decide) (by decide)⟩


/-! ## Lemmas on parse failures -/

theorem parseDigits_some_all (ds : List Char) (acc n : Nat) (h : parseDigits ds acc = some n) :
    ∀ x ∈ ds, (digitVal x).isSome = true := by
  induction ds generalizing acc with
  | nil => intro x hx; cases hx
  | cons y ys ih =>
    intro x hx
    simp only [parseDigits] at h
    cases hy : digitVal y with
    | none => rw [hy] at h; cases h
    | some d =>
      rw [hy] at h
      rcases List.mem_cons.mp hx with rfl | hx
      · rw [hy]; rfl
      · exact ih _ h x hx

theorem isDigits_of_parseDigits {ds : List Char} {acc n : Nat} (hne : ds ≠ [])
    (h : parseDigits ds acc = some n) : isDigits ds = true := by
  have hall := parseDigits_some_all ds acc n h
  cases ds with
  | nil => exact absurd rfl hne
  | cons y ys =>
    simp only [isDigits, List.isEmpty_cons, Bool.not_false, Bool.true_and, List.all_eq_true]
    exact hall

theorem isPlusDigits_of_atoi {p : List Char} {i : Int} (hdash : '-' ∉ p)
    (h : atoi p = some i) : isPlusDigits p = true := by
  cases p with
  | nil => cases h
  | cons c cs =>
    have hc : (c == '-') = false := by
      rw [beq_eq_false_iff_ne]; intro e; exact hdash (e ▸ List.mem_cons_self _ _)
    by_cases hplus : c = '+'
    · subst hplus
      cases cs with
      | nil => simp [atoi] at h
      | cons y ys =>
        cases hp : parseDigits (y :: ys) 0 with
        | none => simp [atoi, hp] at h
        | some n => exact isDigits_of_parseDigits (by simp) hp
    · have hplus' : (c == '+') = false := by rw [beq_eq_false_iff_ne]; exact hplus
      cases hp : parseDigits (c :: cs) 0 with
      | none => simp [atoi, hc, hplus', hp] at h
      | some n =>
        have hd := isDigits_of_parseDigits (List.cons_ne_nil c cs) hp
        unfold isPlusDigits
        split
        · rename_i heq; injection heq with h1 _; exact absurd h1 hplus
        · exact hd

theorem splitAux_subset (sep : Char) (s cur : List Char) :
    ∀ p ∈ splitAux sep s cur, ∀ x ∈ p, x ∈ s ∨ x ∈ cur := by
  induction s generalizing cur with
  | nil =>
    intro p hp x hx
    simp only [splitAux, List.mem_singleton] at hp
    subst hp
    exact Or.inr (List.mem_reverse.mp hx)
  | cons y ys ih =>
    intro p hp x hx
    simp only [splitAux] at hp
    split at hp
    · rcases List.mem_cons.mp hp with rfl | hp
      · exact Or.inr (List.mem_reverse.mp hx)
      · rcases ih [] p hp x hx with h | h
        · exact Or.inl (List.mem_cons_of_mem _ h)
        · cases h
    · rcases ih (y :: cur) p hp x hx with h | h
      · exact Or.inl (List.mem_cons_of_mem _ h)
      · rcases List.mem_cons.mp h with rfl | h
        · exact Or.inl (List.mem_cons_self _ _)
        · exact Or.inr h

theorem split_subset (sep : Char) (s : List Char) : ∀ p ∈ split s sep, ∀ x ∈ p, x ∈ s := by
  intro p hp x hx
  rcases splitAux_subset sep s [] p hp x hx with h | h
  · exact h
  · cases h

theorem index_singleton_take (c : Char) (s : List Char) (i : Nat) (h : index [c] s = some i) :
    c ∉ s.take i := by
  induction s generalizing i with
  | nil => simp
  | cons y ys ih =>
    by_cases hp : [c].isPrefixOf (y :: ys) = true
    · simp only [index, hp, if_true, Option.some.injEq] at h
      subst h
      simp
    · simp only [index, hp, Bool.false_eq_true, if_false, Option.map_eq_some'] at h
      obtain ⟨j, hj, rfl⟩ := h
      have hne : c ≠ y := by
        intro e
        apply hp
        simp [List.isPrefixOf, e]
      simp only [List.take_succ_cons, List.mem_cons, not_or]
      exact ⟨hne, ih j hj⟩

theorem index_singleton_none (c : Char) (s : List Char) (h : index [c] s = none) : c ∉ s := by
  intro hmem
  obtain ⟨u, w, rfl⟩ := List.mem_iff_append.mp hmem
  have : (index [c] (u ++ c :: w)).isSome = true :=
    (index_isSome_iff [c] (u ++ c :: w)).mpr ⟨u, w, by simp⟩
  rw [h] at this
  cases this

theorem strippedVersion_no_dash (version : List Char) : '-' ∉ strippedVersion version := by
  unfold strippedVersion
  simp only
  split
  · rename_i idx hidx
    exact index_singleton_take '-' _ idx hidx
  · rename_i hidx
    exact index_singleton_none '-' _ hidx

theorem threePlusDigitComponents_of_parseVersion {version : List Char} {v : Int × Int × Int}
    (h : parseVersion version = .ok v) : threePlusDigitComponents version = true := by
  rw [parseVersion_eq] at h
  unfold threePlusDigitComponents
  have hsub := split_subset '.' (strippedVersion version)
  have hdash := strippedVersion_no_dash version
  split at h
  · rename_i p0 p1 p2 hs
    rw [hs] at hsub
    have d0 : '-' ∉ p0 := fun hm => hdash (hsub p0 (by simp) _ hm)
    have d1 : '-' ∉ p1 := fun hm => hdash (hsub p1 (by simp) _ hm)
    have d2 : '-' ∉ p2 := fun hm => hdash (hsub p2 (by simp) _ hm)
    cases h0 : atoi p0 with
    | none => simp [h0] at h
    | some i0 =>
      cases h1 : atoi p1 with
      | none => simp [h0, h1] at h
      | some i1 =>
        cases h2 : atoi p2 with
        | none => simp [h0, h1, h2] at h
        | some i2 =>
          simp [isPlusDigits_of_atoi d0 h0, isPlusDigits_of_atoi d1 h1,
            isPlusDigits_of_atoi d2 h2]
  · cases h

theorem parseVersion_error_of_shape {version : List Char}
    (h : threePlusDigitComponents version = false) : ∃ err, parseVersion version = .error err := by
  cases hp : parseVersion version with
  | error err => exact ⟨err, rfl⟩
  | ok v =>
    rw [threePlusDigitComponents_of_parseVersion hp] at h
    cases h

/-! ## Claim on parse failures -/

/-- C3 (as stated, refuted): `"+1.2.3"` is not three components of decimal digits only,
`"1.2.3"` carries no pre-release marker, yet `parseVersion "+1.2.3"` succeeds and
`getVersionDiff "+1.2.3" "1.2.3"` returns the classification `CurrentIsLatest`. -/
theorem getVersionDiff_plus_sign_accepted :
    threeDigitComponents "+1.2.3".toList = false ∧
      isReleaseCandidate id "1.2.3".toList = false ∧
      parseVersion "+1.2.3".toList = .ok (1, 2, 3) ∧
      getVersionDiff id "+1.2.3".toList "1.2.3".toList = (CurrentIsLatest, none) :=
  ⟨by decide, by decide, rfl, by decide⟩

/-- C3 (amended): when `latest` carries no pre-release marker and either string, stripped
of surrounding white space, one leading `v` and everything from the first `-`, is not
exactly three dot-separated components each an optional `+` followed by one or more decimal
digits, `getVersionDiff` returns a parse error with `NoDiff`, and `parseVersion` fails on
that string; `"1.2"`, `"1.2.3.4"`, `"x.2.3"`, `"1.y.3"`, `"1.2.z"`, `""`, `"-rc"` and `"abc"`
are such strings. -/
theorem getVersionDiff_parse_error (caseTable : Char → Char) (current latest : List Char)
    (hrc : isReleaseCandidate caseTable latest = false)
    (hbad : threePlusDigitComponents current = false ∨ threePlusDigitComponents latest = false) :
    (∃ err, getVersionDiff caseTable current latest = (NoDiff, some err)) ∧
      (threePlusDigitComponents current = false → ∃ err, parseVersion current = .error err) ∧
      (threePlusDigitComponents latest = false → ∃ err, parseVersion latest = .error err) ∧
      (∀ s ∈ ["1.2", "1.2.3.4", "x.2.3", "1.y.3", "1.2.z", "", "-rc", "abc"],
        threePlusDigitComponents s.toList = false) := by
  refine ⟨?_, parseVersion_error_of_shape, parseVersion_error_of_shape, by decide⟩
  unfold getVersionDiff
  simp only [hrc, Bool.false_eq_true, if_false]
  cases hc : parseVersion current with
  | error e => exact ⟨_, rfl⟩
  | ok vc =>
    obtain ⟨a, b, c⟩ := vc
    cases hl : parseVersion latest with
    | error e => exact ⟨_, rfl⟩
    | ok vl =>
      rcases hbad with h | h
      · rw [threePlusDigitComponents_of_parseVersion hc] at h; cases h
      · rw [threePlusDigitComponents_of_parseVersion hl] at h; cases h

/-- C3 (witness): `"1.2"` against `"1.2.3"` is a parse error, never a classification. -/
theorem getVersionDiff_parse_error_witness :
    ∃ err, getVersionDiff id "1.2".toList "1.2.3".toList = (NoDiff, some err) :=
  (getVersionDiff_parse_error id "1.2".toList "1.2.3".toList (by decide)
    (Or.inl (by decide))).1

/-! ## Lemmas on the pool -/

theorem get?_split {tasks : List Task} {i : Nat} {t : Task} (h : tasks.get? i = some t) :
    ∃ l1 l2, tasks = l1 ++ t :: l2 ∧
      ∀ pc, setPC tasks i pc = l1 ++ { t with pc := pc } :: l2 := by
  induction tasks generalizing i with
  | nil => cases h
  | cons t0 ts ih =>
    cases i with
    | zero =>
      simp only [List.get?_cons_zero, Option.some.injEq] at h
      subst h
      exact ⟨[], ts, rfl, fun _ => rfl⟩
    | succ j =>
      simp only [List.get?_cons_succ] at h
      obtain ⟨l1, l2, h1, h2⟩ := ih h
      refine ⟨t0 :: l1, l2, by rw [h1]; rfl, fun pc => ?_⟩
      show t0 :: setPC ts j pc = _
      rw [h2 pc]; rfl

theorem countP_replace (f : Task → Bool) (l1 l2 : List Task) (t u : Task) :
    List.countP f (l1 ++ u :: l2) + (if f t then 1 else 0) =
      List.countP f (l1 ++ t :: l2) + (if f u then 1 else 0) := by
  simp only [List.countP_append, List.countP_cons]
  omega

theorem map_taskKey_setPC (tasks : List Task) (i : Nat) (pc : TaskPC) :
    (setPC tasks i pc).map taskKey = tasks.map taskKey := by
  induction tasks generalizing i with
  | nil => rfl
  | cons t ts ih =>
    cases i with
    | zero => rfl
    | succ j => simp [setPC, ih]

/-- What a step does to the tasks: it appends one, or moves one along its code. -/
theorem step_tasks {p q : Pool} {a : Action} (h : step p a = some q) :
    (∃ pkg cb, a = .spawn pkg cb ∧
        q.tasks = p.tasks ++ [{ pkg := pkg, callback := cb, pc := .spawned }]) ∨
      (∃ i pc, q.tasks = setPC p.tasks i pc ∧ submitted [a] = []) := by
  cases a with
  | spawn pkg cb =>
    simp only [step, Option.some.injEq] at h
    subst h
    exact Or.inl ⟨pkg, cb, rfl, rfl⟩
  | acquire i =>
    right
    simp only [step] at h
    split at h
    · split at h
      · split at h
        · simp only [Option.some.injEq] at h; subst h; exact ⟨i, _, rfl, rfl⟩
        · cases h
      · cases h
    · cases h
  | process i w =>
    right
    simp only [step] at h
    split at h
    · split at h
      · split at h
        · simp only [Option.some.injEq] at h; subst h; exact ⟨i, _, rfl, rfl⟩
        · simp only [Option.some.injEq] at h; subst h; exact ⟨i, _, rfl, rfl⟩
      · cases h
    · cases h
  | count i =>
    right
    simp only [step] at h
    split at h
    · split at h
      · simp only [Option.some.injEq] at h; subst h; exact ⟨i, _, rfl, rfl⟩
      · cases h
    · cases h
  | notify i =>
    right
    simp only [step] at h
    split at h
    · split at h
      · split at h
        · simp only [Option.some.injEq] at h; subst h; exact ⟨i, _, rfl, rfl⟩
        · simp only [Option.some.injEq] at h; subst h; exact ⟨i, _, rfl, rfl⟩
      · cases h
    · cases h
  | release i =>
    right
    simp only [step] at h
    split at h
    · split at h
      · split at h
        · simp only [Option.some.injEq] at h; subst h; exact ⟨i, _, rfl, rfl⟩
        · cases h
      · cases h
    · cases h
  | done i =>
    right
    simp only [step] at h
    split at h
    · split at h
      · simp only [Option.some.injEq] at h; subst h; exact ⟨i, _, rfl, rfl⟩
      · cases h
    · cases h

theorem step_map_taskKey {p q : Pool} {a : Action} (h : step p a = some q) :
    q.tasks.map taskKey = p.tasks.map taskKey ++ (submitted [a]).map (fun x => (x.2, x.1)) := by
  rcases step_tasks h with ⟨pkg, cb, rfl, hq⟩ | ⟨i, pc, hq, hs⟩
  · rw [hq]; simp [submitted, taskKey]
  · rw [hq, hs, map_taskKey_setPC]; simp

theorem step_panicked {p q : Pool} {a : Action} (h : step p a = some q)
    (hq : q.panicked = false) : p.panicked = false := by
  cases a with
  | spawn pkg cb =>
    simp only [step, Option.some.injEq] at h
    subst h; exact hq
  | acquire i =>
    simp only [step] at h
    split at h
    · split at h
      · split at h
        · simp only [Option.some.injEq] at h; subst h; exact hq
        · cases h
      · cases h
    · cases h
  | process i w =>
    simp only [step] at h
    split at h
    · split at h
      · split at h
        · simp only [Option.some.injEq] at h; subst h; exact hq
        · simp only [Option.some.injEq] at h; subst h; cases hq
      · cases h
    · cases h
  | count i =>
    simp only [step] at h
    split at h
    · split at h
      · simp only [Option.some.injEq] at h; subst h; exact hq
      · cases h
    · cases h
  | notify i =>
    simp only [step] at h
    split at h
    · split at h
      · split at h
        · simp only [Option.some.injEq] at h; subst h; exact hq
        · simp only [Option.some.injEq] at h; subst h; exact hq
      · cases h
    · cases h
  | release i =>
    simp only [step] at h
    split at h
    · split at h
      · split at h
        · simp only [Option.some.injEq] at h; subst h; exact hq
        · cases h
      · cases h
    · cases h
  | done i =>
    simp only [step] at h
    split at h
    · split at h
      · simp only [Option.some.injEq] at h; subst h; exact hq
      · cases h
    · cases h

theorem callback_of_map_taskKey {ts us : List Task}
    (h : ∃ extra, us.map taskKey = ts.map taskKey ++ extra)
    (hus : ∀ t ∈ us, t.callback ≠ none) : ∀ t ∈ ts, t.callback ≠ none := by
  obtain ⟨extra, he⟩ := h
  intro t ht
  have hmem : taskKey t ∈ us.map taskKey := by
    rw [he]; exact List.mem_append_left _ (List.mem_map_of_mem _ ht)
  obtain ⟨u, hu, hk⟩ := List.mem_map.mp hmem
  have : u.callback = t.callback := congrArg Prod.fst hk
  rw [← this]
  exact hus u hu

theorem step_good {p q : Pool} {a : Action} (h : step p a = some q) (hq : q.good) : p.good := by
  obtain ⟨h1, h2, h3⟩ := hq
  have hk := step_map_taskKey h
  refine ⟨step_panicked h h1, ?_, callback_of_map_taskKey ⟨_, hk⟩ h3⟩
  have hlen := congrArg List.length hk
  simp only [List.length_map, List.length_append] at hlen
  omega


theorem wrapInt64_eq {x : Int} (h0 : 0 ≤ x) (h1 : x < 2 ^ 63) : wrapInt64 x = x := by
  unfold wrapInt64
  omega

/-- A step that changes none of the four measures of the moved task keeps the invariant. -/
theorem inv_of_neutral {p q : Pool} {l1 l2 : List Task} {t : Task} {pc : TaskPC}
    (hp : p.Inv) (hts : p.tasks = l1 ++ t :: l2)
    (hq : q.tasks = l1 ++ { t with pc := pc } :: l2)
    (hcc : q.currentCount = p.currentCount)
    (hwg : q.wg + (if t.pc.live then 1 else 0) = p.wg + (if pc.live then 1 else 0))
    (hcalls : q.calls = p.calls)
    (h1 : pc.hasCounted = t.pc.hasCounted)
    (h3 : pc.held = t.pc.held) (h4 : pc.hasNotified = t.pc.hasNotified)
    (h5 : pc ≠ .panicking) : q.Inv := by
  have hn : numCounted q.tasks = numCounted p.tasks := by
    simp only [numCounted, hts, hq, List.countP_append, List.countP_cons, h1]
  have hl := countP_replace (fun t => t.pc.live) l1 l2 t { t with pc := pc }
  rw [← hts, ← hq] at hl
  have hi : issued q = issued p := by
    simp only [issued, hts, hq, hcalls, List.flatMap_append, List.flatMap_cons, h3]
  have hf : (q.tasks.filter (fun t => t.pc.hasNotified)).map taskKey =
      (p.tasks.filter (fun t => t.pc.hasNotified)).map taskKey := by
    simp only [hts, hq, List.filter_append, List.filter_cons, h4]
    split <;> simp [taskKey]
  refine ⟨?_, ?_, ?_, ?_, ?_, ?_⟩
  · intro u hu
    rw [hq] at hu
    rcases List.mem_append.mp hu with hu | hu
    · exact hp.noPanic u (by rw [hts]; exact List.mem_append_left _ hu)
    · rcases List.mem_cons.mp hu with rfl | hu
      · exact h5
      · exact hp.noPanic u (by rw [hts]; exact List.mem_append_right _ (List.mem_cons_of_mem _ hu))
  · rw [hcc, hn]; exact hp.count_eq
  · have hw := hp.wg_eq
    simp only [] at hl
    split_ifs at hwg hl <;> omega
  · rw [hi, hn]; exact hp.issued_eq
  · rw [hcalls, hf]; exact hp.calls_eq
  · rw [hcalls]; exact hp.outdated_eq

theorem inv_spawn {p : Pool} (hp : p.Inv) (pkg : Package) (cb : Option Nat) :
    Pool.Inv { p with wg := p.wg + 1,
                      tasks := p.tasks ++ [{ pkg := pkg, callback := cb, pc := .spawned }] } := by
  refine ⟨?_, ?_, ?_, ?_, ?_, ?_⟩
  · intro u hu
    rcases List.mem_append.mp hu with hu | hu
    · exact hp.noPanic u hu
    · rw [List.mem_singleton.mp hu]; simp
  · simp only [numCounted, List.countP_append, List.countP_cons, List.countP_nil,
      TaskPC.hasCounted]
    simpa [numCounted] using hp.count_eq
  · simp only [List.countP_append, List.countP_cons, List.countP_nil]
    have := hp.wg_eq
    simp only [TaskPC.live] at this ⊢
    rw [this]
    simp
  · have := hp.issued_eq
    simpa [issued, numCounted, List.flatMap_append, TaskPC.held, TaskPC.hasCounted] using this
  · have := hp.calls_eq
    simpa [List.filter_append, TaskPC.hasNotified] using this
  · exact hp.outdated_eq

theorem inv_count {p q : Pool} {l1 l2 : List Task} {t : Task} {latest : List Char}
    (hp : p.Inv) (hts : p.tasks = l1 ++ t :: l2) (hpc : t.pc = .processed latest)
    (hlen : p.tasks.length < 2 ^ 63)
    (hcc : q.currentCount = atomicAddInt64 p.currentCount 1)
    (hq : q.tasks = l1 ++ { t with pc := .counted latest q.currentCount } :: l2)
    (hwg : q.wg = p.wg) (hcalls : q.calls = p.calls) : q.Inv := by
  have hn : numCounted q.tasks = numCounted p.tasks + 1 := by
    simp only [numCounted, hq, hts, List.countP_append, List.countP_cons, hpc,
      TaskPC.hasCounted]
    simp
    omega
  have hlt : numCounted p.tasks < p.tasks.length := by
    have h : List.countP (fun t : Task => t.pc.hasCounted) (l1 ++ l2) ≤ (l1 ++ l2).length :=
      List.countP_le_length _
    simp only [numCounted, hts, List.countP_append, List.countP_cons, hpc, TaskPC.hasCounted,
      List.length_append, List.length_cons] at h ⊢
    simp at h ⊢
    omega
  have hval : q.currentCount = ((numCounted p.tasks + 1 : Nat) : Int) := by
    rw [hcc]
    unfold atomicAddInt64
    rw [hp.count_eq, wrapInt64_eq (by positivity)]
    · push_cast; rfl
    · have : ((numCounted p.tasks : Nat) : Int) + 1 ≤ (p.tasks.length : Int) := by
        exact_mod_cast hlt
      have h63 : (p.tasks.length : Int) < 2 ^ 63 := by exact_mod_cast hlen
      omega
  refine ⟨?_, ?_, ?_, ?_, ?_, ?_⟩
  · intro u hu
    rw [hq] at hu
    rcases List.mem_append.mp hu with hu | hu
    · exact hp.noPanic u (by rw [hts]; exact List.mem_append_left _ hu)
    · rcases List.mem_cons.mp hu with rfl | hu
      · simp
      · exact hp.noPanic u (by rw [hts]; exact List.mem_append_right _ (List.mem_cons_of_mem _ hu))
  · rw [hn, hval]
  · rw [hwg, hp.wg_eq, hq, hts]
    simp only [List.countP_append, List.countP_cons, hpc, TaskPC.live]
    simp
  · rw [hn, List.range'_concat, List.map_append, ← Multiset.coe_add, ← hp.issued_eq]
    simp only [issued, hq, hcalls, hts, List.flatMap_append, List.flatMap_cons, hpc,
      TaskPC.held, ← Multiset.coe_add, hval]
    simp only [List.nil_append, List.map_cons, List.map_nil, Multiset.coe_nil, zero_add]
    have e : Int.ofNat (1 + 1 * numCounted (l1 ++ t :: l2)) =
        ((numCounted (l1 ++ t :: l2) + 1 : Nat) : Int) := by
      rw [Nat.one_mul, Nat.add_comm]; rfl
    rw [e]
    abel
  · rw [hcalls, hp.calls_eq, hq, hts]
    simp [List.filter_append, List.filter_cons, hpc, TaskPC.hasNotified]
  · rw [hcalls]; exact hp.outdated_eq


theorem inv_notify {p q : Pool} {l1 l2 : List Task} {t : Task} {latest : List Char}
    {count : Int} {cb : Nat}
    (hp : p.Inv) (hts : p.tasks = l1 ++ t :: l2) (hpc : t.pc = .counted latest count)
    (hcb : t.callback = some cb)
    (hq : q.tasks = l1 ++ { t with pc := .notified } :: l2)
    (hcc : q.currentCount = p.currentCount) (hwg : q.wg = p.wg)
    (hcalls : q.calls = p.calls ++ [(cb, progressEvent t.pkg latest count)]) : q.Inv := by
  have hn : numCounted q.tasks = numCounted p.tasks := by
    simp only [numCounted, hts, hq, List.countP_append, List.countP_cons, hpc,
      TaskPC.hasCounted]
  refine ⟨?_, ?_, ?_, ?_, ?_, ?_⟩
  · intro u hu
    rw [hq] at hu
    rcases List.mem_append.mp hu with hu | hu
    · exact hp.noPanic u (by rw [hts]; exact List.mem_append_left _ hu)
    · rcases List.mem_cons.mp hu with rfl | hu
      · simp
      · exact hp.noPanic u (by rw [hts]; exact List.mem_append_right _ (List.mem_cons_of_mem _ hu))
  · rw [hcc, hn]; exact hp.count_eq
  · rw [hwg, hp.wg_eq, hq, hts]
    simp only [List.countP_append, List.countP_cons, hpc, TaskPC.live]
    simp
  · rw [hn, ← hp.issued_eq]
    simp only [issued, hq, hcalls, hts, List.flatMap_append, List.flatMap_cons, hpc,
      TaskPC.held, List.map_append, ← Multiset.coe_add, progressEvent]
    simp only [List.nil_append, List.map_cons, List.map_nil, Multiset.coe_nil, zero_add]
    abel
  · have hk : callKey (cb, progressEvent t.pkg latest count) =
        taskKey { t with pc := .notified } := by
      simp [callKey, taskKey, progressEvent, hcb]
    have hf : (q.tasks.filter (fun t => t.pc.hasNotified)).map taskKey =
        (l1.filter (fun t => t.pc.hasNotified)).map taskKey ++
          (taskKey { t with pc := .notified } ::
            (l2.filter (fun t => t.pc.hasNotified)).map taskKey) := by
      simp [hq, List.filter_append, List.filter_cons, TaskPC.hasNotified]
    have hf0 : (p.tasks.filter (fun t => t.pc.hasNotified)).map taskKey =
        (l1.filter (fun t => t.pc.hasNotified)).map taskKey ++
          (l2.filter (fun t => t.pc.hasNotified)).map taskKey := by
      simp [hts, List.filter_append, List.filter_cons, hpc, TaskPC.hasNotified]
    have hc := hp.calls_eq
    rw [hf0, ← Multiset.coe_add] at hc
    rw [hcalls, hf, List.map_append, ← Multiset.coe_add, hc, ← Multiset.coe_add,
      List.map_cons, List.map_nil, hk, ← Multiset.cons_coe, ← Multiset.cons_coe,
      Multiset.coe_nil]
    simp only [← Multiset.singleton_add]
    abel
  · intro c hc
    rw [hcalls] at hc
    rcases List.mem_append.mp hc with hc | hc
    · exact hp.outdated_eq c hc
    · rw [List.mem_singleton.mp hc]; rfl

theorem run_good {p q : Pool} {acts : List Action} (h : run p acts = some q) (hq : q.good) :
    p.good := by
  induction acts generalizing p with
  | nil =>
    simp only [run, Option.some.injEq] at h
    subst h; exact hq
  | cons a rest ih =>
    simp only [run] at h
    split at h
    · rename_i r hr
      exact step_good hr (ih h)
    · cases h

theorem run_map_taskKey {p q : Pool} {acts : List Action} (h : run p acts = some q) :
    q.tasks.map taskKey = p.tasks.map taskKey ++ (submitted acts).map (fun x => (x.2, x.1)) := by
  induction acts generalizing p with
  | nil =>
    simp only [run, Option.some.injEq] at h
    subst h; simp [submitted]
  | cons a rest ih =>
    simp only [run] at h
    split at h
    · rename_i r hr
      rw [ih h, step_map_taskKey hr]
      cases a <;> simp [submitted]
    · cases h


/-- Every step of a good run keeps the invariant. -/
theorem step_inv {p q : Pool} {a : Action} (h : step p a = some q) (hq : q.good)
    (hp : p.Inv) : q.Inv := by
  have hpg := step_good h hq
  cases a with
  | spawn pkg cb =>
    simp only [step, Option.some.injEq] at h
    subst h
    exact inv_spawn hp pkg cb
  | acquire i =>
    simp only [step] at h
    split at h
    · rename_i t ht
      obtain ⟨l1, l2, hts, hset⟩ := get?_split ht
      split at h
      · rename_i hpc
        split at h
        · simp only [Option.some.injEq] at h
          subst h
          exact inv_of_neutral hp hts (hset _) rfl (by simp [hpc, TaskPC.live]) rfl
            (by simp [hpc, TaskPC.hasCounted]) (by simp [hpc, TaskPC.held])
            (by simp [hpc, TaskPC.hasNotified]) (by simp)
        · cases h
      · cases h
    · cases h
  | process i w =>
    simp only [step] at h
    split at h
    · rename_i t ht
      obtain ⟨l1, l2, hts, hset⟩ := get?_split ht
      split at h
      · rename_i hpc
        split at h
        · simp only [Option.some.injEq] at h
          subst h
          exact inv_of_neutral hp hts (hset _) rfl (by simp [hpc, TaskPC.live]) rfl
            (by simp [hpc, TaskPC.hasCounted]) (by simp [hpc, TaskPC.held])
            (by simp [hpc, TaskPC.hasNotified]) (by simp)
        · simp only [Option.some.injEq] at h
          subst h
          exact absurd hq.1 (by simp)
      · cases h
    · cases h
  | count i =>
    simp only [step] at h
    split at h
    · rename_i t ht
      obtain ⟨l1, l2, hts, hset⟩ := get?_split ht
      split at h
      · rename_i latest hpc
        simp only [Option.some.injEq] at h
        subst h
        exact inv_count hp hts hpc hpg.2.1 rfl (hset _) rfl rfl
      · cases h
    · cases h
  | notify i =>
    simp only [step] at h
    split at h
    · rename_i t ht
      obtain ⟨l1, l2, hts, hset⟩ := get?_split ht
      split at h
      · rename_i latest count hpc
        split at h
        · rename_i cb hcb
          simp only [Option.some.injEq] at h
          subst h
          exact inv_notify hp hts hpc hcb (hset _) rfl rfl rfl
        · rename_i hcb
          exact absurd hcb (hpg.2.2 t (by rw [hts]; simp))
      · cases h
    · cases h
  | release i =>
    simp only [step] at h
    split at h
    · rename_i t ht
      obtain ⟨l1, l2, hts, hset⟩ := get?_split ht
      split at h
      · rename_i hpc
        have hpc' : t.pc = .notified := by
          rcases hpc with hpc | hpc
          · exact hpc
          · exact absurd hpc (hp.noPanic t (by rw [hts]; simp))
        split at h
        · simp only [Option.some.injEq] at h
          subst h
          exact inv_of_neutral hp hts (hset _) rfl (by simp [hpc', TaskPC.live]) rfl
            (by simp [hpc', TaskPC.hasCounted]) (by simp [hpc', TaskPC.held])
            (by simp [hpc', TaskPC.hasNotified]) (by simp)
        · cases h
      · cases h
    · cases h
  | done i =>
    simp only [step] at h
    split at h
    · rename_i t ht
      obtain ⟨l1, l2, hts, hset⟩ := get?_split ht
      split at h
      · rename_i hpc
        simp only [Option.some.injEq] at h
        subst h
        exact inv_of_neutral hp hts (hset _) rfl (by simp [hpc, TaskPC.live]) rfl
          (by simp [hpc, TaskPC.hasCounted]) (by simp [hpc, TaskPC.held])
          (by simp [hpc, TaskPC.hasNotified]) (by simp)
      · cases h
    · cases h

theorem run_inv {p q : Pool} {acts : List Action} (h : run p acts = some q) (hq : q.good)
    (hp : p.Inv) : q.Inv := by
  induction acts generalizing p with
  | nil =>
    simp only [run, Option.some.injEq] at h
    subst h; exact hp
  | cons a rest ih =>
    simp only [run] at h
    split at h
    · rename_i r hr
      exact ih h (step_inv hr (run_good h hq) hp)
    · cases h

theorem inv_NewPool (maxWorkers : Nat) (pkgManager : PackageManager) :
    (NewPool maxWorkers pkgManager).Inv := by
  refine ⟨?_, ?_, ?_, ?_, ?_, ?_⟩ <;> simp [NewPool, numCounted, issued]


theorem all_finished_measures (ts : List Task) (h : ∀ t ∈ ts, t.pc = .finished) :
    ts.flatMap (fun t => t.pc.held) = [] ∧ ts.filter (fun t => t.pc.hasNotified) = ts ∧
      numCounted ts = ts.length := by
  induction ts with
  | nil => exact ⟨rfl, rfl, rfl⟩
  | cons t ts ih =>
    obtain ⟨h1, h2, h3⟩ := ih (fun u hu => h u (List.mem_cons_of_mem _ hu))
    have ht : t.pc = .finished := h t (List.mem_cons_self _ _)
    refine ⟨?_, ?_, ?_⟩
    · rw [List.flatMap_cons, h1, ht]; rfl
    · rw [List.filter_cons, h2, ht]; rfl
    · simp only [numCounted, List.countP_cons, ht, TaskPC.hasCounted, List.length_cons] at h3 ⊢
      simp [h3]

/-! ## Claims on the pool -/

/-- C5: on a fresh pool, for every schedule that submits packages with non-nil callbacks
(fewer than `2^63` of them) and in which no task panics, once `Wait` can return the
callbacks have been invoked exactly once per submitted package, the sequence values passed
are exactly `1..N` for the number `N` of submitted packages, and `GetCurrentCount` is `N`. -/
theorem pool_sequence_values (maxWorkers : Nat) (pkgManager : PackageManager)
    (acts : List Action) (s : Pool)
    (hrun : run (NewPool maxWorkers pkgManager) acts = some s)
    (hcb : ∀ x ∈ submitted acts, x.2 ≠ none)
    (hN : (submitted acts).length < 2 ^ 63)
    (hpanic : s.panicked = false)
    (hwait : s.waitReturns) :
    s.calls.length = (submitted acts).length ∧
      (s.calls.map callKey).Perm ((submitted acts).map (fun x => (x.2, x.1))) ∧
      (s.calls.map (fun c => c.2.count)).Perm
        ((List.range' 1 (submitted acts).length).map Int.ofNat) ∧
      s.GetCurrentCount = ((submitted acts).length : Int) := by
  have hk := run_map_taskKey hrun
  simp only [NewPool, List.map_nil, List.nil_append] at hk
  have hlen : s.tasks.length = (submitted acts).length := by
    have := congrArg List.length hk
    simpa using this
  have hgood : s.good := by
    refine ⟨hpanic, by rw [hlen]; exact hN, ?_⟩
    intro t ht
    have hmem : taskKey t ∈ (submitted acts).map (fun x => (x.2, x.1)) := by
      rw [← hk]; exact List.mem_map_of_mem _ ht
    obtain ⟨x, hx, hxt⟩ := List.mem_map.mp hmem
    have : x.2 = t.callback := congrArg Prod.fst hxt
    rw [← this]
    exact hcb x hx
  have inv := run_inv hrun hgood (inv_NewPool maxWorkers pkgManager)
  have hfin : ∀ t ∈ s.tasks, t.pc = .finished := by
    have h0 : s.tasks.countP (fun t => t.pc.live) = 0 := by
      have := inv.wg_eq
      rw [show s.wg = 0 from hwait] at this
      exact_mod_cast this.symm
    intro t ht
    have := (List.countP_eq_zero.mp h0) t ht
    simpa [TaskPC.live] using this
  obtain ⟨hheld, hfilter, hnum⟩ := all_finished_measures s.tasks hfin
  have hperm1 : (s.calls.map callKey).Perm ((submitted acts).map (fun x => (x.2, x.1))) := by
    have := inv.calls_eq
    rw [hfilter, hk] at this
    exact Multiset.coe_eq_coe.mp this
  have hperm2 : (s.calls.map (fun c => c.2.count)).Perm
      ((List.range' 1 (submitted acts).length).map Int.ofNat) := by
    have := inv.issued_eq
    rw [issued, hheld, List.append_nil, hnum, hlen] at this
    exact Multiset.coe_eq_coe.mp this
  refine ⟨?_, hperm1, hperm2, ?_⟩
  · have := hperm1.length_eq
    simpa using this
  · show s.currentCount = _
    rw [inv.count_eq, hnum, hlen]

/-- C5 (witness): two packages, the second task reaching the counter first; the callback
receives the values 2 and 1. -/
theorem pool_sequence_values_witness :
    run (NewPool 2 NPM) overtakingSchedule = some overtakingFinal ∧
      overtakingFinal.calls.map (fun c => c.2.count) = [2, 1] ∧
      (overtakingFinal.calls.map (fun c => c.2.count)).Perm
        ((List.range' 1 (submitted overtakingSchedule).length).map Int.ofNat) ∧
      overtakingFinal.GetCurrentCount = 2 :=
  have h := pool_sequence_values 2 NPM overtakingSchedule overtakingFinal rfl (by decide)
    (by decide) rfl rfl
  ⟨rfl, rfl, h.2.2.1, h.2.2.2⟩


/-! ## A schedule in which `Wait` returns -/

theorem run_append (p : Pool) (xs ys : List Action) :
    run p (xs ++ ys) = (run p xs).bind (fun q => run q ys) := by
  induction xs generalizing p with
  | nil => rfl
  | cons a rest ih =>
    simp only [List.cons_append, run]
    cases step p a with
    | none => rfl
    | some q => exact ih q

theorem get?_append_cons (l1 l2 : List Task) (t : Task) :
    (l1 ++ t :: l2).get? l1.length = some t := by
  induction l1 with
  | nil => rfl
  | cons u us ih => simpa using ih

theorem setPC_append_cons (l1 l2 : List Task) (t : Task) (pc : TaskPC) :
    setPC (l1 ++ t :: l2) l1.length pc = l1 ++ { t with pc := pc } :: l2 := by
  induction l1 with
  | nil => rfl
  | cons u us ih =>
    show u :: setPC (us ++ t :: l2) us.length pc = _
    rw [ih]; rfl

theorem run_ProcessPackages (p : Pool) (packages : List Package) (cb : Option Nat) :
    ∃ q, run p (ProcessPackages packages cb) = some q ∧ q.maxWorkers = p.maxWorkers ∧
      q.sem = p.sem ∧ q.wg = p.wg + packages.length ∧ q.pkgManager = p.pkgManager ∧
      q.panicked = p.panicked ∧
      q.tasks = p.tasks ++ packages.map (fun pkg => { pkg := pkg, callback := cb, pc := .spawned }) := by
  induction packages generalizing p with
  | nil => exact ⟨p, rfl, rfl, rfl, by simp, rfl, rfl, by simp⟩
  | cons pkg rest ih =>
    obtain ⟨q, h1, h2, h3, h4, h5, h6, h7⟩ :=
      ih { p with wg := p.wg + 1,
                  tasks := p.tasks ++ [{ pkg := pkg, callback := cb, pc := .spawned }] }
    refine ⟨q, ?_, h2, h3, ?_, h5, h6, ?_⟩
    · simpa [ProcessPackages, run, step] using h1
    · rw [h4]; simp only [List.length_cons]; push_cast; ring
    · rw [h7]; simp

theorem step_acquire_ex (p : Pool) (l1 l2 : List Task) (t : Task)
    (hts : p.tasks = l1 ++ t :: l2) (hpc : t.pc = .spawned) (hlt : p.sem < p.maxWorkers) :
    ∃ q, step p (.acquire l1.length) = some q ∧ q.maxWorkers = p.maxWorkers ∧
      q.pkgManager = p.pkgManager ∧ q.panicked = p.panicked ∧ q.sem = p.sem + 1 ∧
      q.wg = p.wg ∧ q.tasks = l1 ++ { t with pc := .acquired } :: l2 := by
  simp only [step]
  rw [hts, get?_append_cons]
  simp only [hpc, hlt, if_true, setPC_append_cons]
  exact ⟨_, rfl, rfl, rfl, rfl, rfl, rfl, rfl⟩

theorem step_process_ex (p : Pool) (l1 l2 : List Task) (t : Task) (w : World)
    (latest : List Char) (hts : p.tasks = l1 ++ t :: l2) (hpc : t.pc = .acquired)
    (hret : processPackage w p.pkgManager t.pkg = .returned latest) :
    ∃ q, step p (.process l1.length w) = some q ∧ q.maxWorkers = p.maxWorkers ∧
      q.pkgManager = p.pkgManager ∧ q.panicked = p.panicked ∧ q.sem = p.sem ∧
      q.wg = p.wg ∧ q.tasks = l1 ++ { t with pc := .processed latest } :: l2 := by
  simp only [step]
  rw [hts, get?_append_cons]
  simp only [hpc, hret, setPC_append_cons]
  exact ⟨_, rfl, rfl, rfl, rfl, rfl, rfl, rfl⟩

theorem step_count_ex (p : Pool) (l1 l2 : List Task) (t : Task) (latest : List Char)
    (hts : p.tasks = l1 ++ t :: l2) (hpc : t.pc = .processed latest) :
    ∃ q, step p (.count l1.length) = some q ∧ q.maxWorkers = p.maxWorkers ∧
      q.pkgManager = p.pkgManager ∧ q.panicked = p.panicked ∧ q.sem = p.sem ∧
      q.wg = p.wg ∧ q.tasks = l1 ++ { t with pc := .counted latest q.currentCount } :: l2 := by
  simp only [step]
  rw [hts, get?_append_cons]
  simp only [hpc, setPC_append_cons]
  exact ⟨_, rfl, rfl, rfl, rfl, rfl, rfl, rfl⟩

theorem step_notify_ex (p : Pool) (l1 l2 : List Task) (t : Task) (latest : List Char)
    (count : Int) (cb : Nat) (hts : p.tasks = l1 ++ t :: l2)
    (hpc : t.pc = .counted latest count) (hcb : t.callback = some cb) :
    ∃ q, step p (.notify l1.length) = some q ∧ q.maxWorkers = p.maxWorkers ∧
      q.pkgManager = p.pkgManager ∧ q.panicked = p.panicked ∧ q.sem = p.sem ∧
      q.wg = p.wg ∧ q.tasks = l1 ++ { t with pc := .notified } :: l2 := by
  simp only [step]
  rw [hts, get?_append_cons]
  simp only [hpc, hcb, setPC_append_cons]
  exact ⟨_, rfl, rfl, rfl, rfl, rfl, rfl, rfl⟩

theorem step_release_ex (p : Pool) (l1 l2 : List Task) (t : Task)
    (hts : p.tasks = l1 ++ t :: l2) (hpc : t.pc = .notified) (hsem : 0 < p.sem) :
    ∃ q, step p (.release l1.length) = some q ∧ q.maxWorkers = p.maxWorkers ∧
      q.pkgManager = p.pkgManager ∧ q.panicked = p.panicked ∧ q.sem = p.sem - 1 ∧
      q.wg = p.wg ∧ q.tasks = l1 ++ { t with pc := .released } :: l2 := by
  simp only [step]
  rw [hts, get?_append_cons]
  simp only [hpc, hsem, true_or, if_true, setPC_append_cons]
  exact ⟨_, rfl, rfl, rfl, rfl, rfl, rfl, rfl⟩

theorem step_done_ex (p : Pool) (l1 l2 : List Task) (t : Task)
    (hts : p.tasks = l1 ++ t :: l2) (hpc : t.pc = .released) :
    ∃ q, step p (.done l1.length) = some q ∧ q.maxWorkers = p.maxWorkers ∧
      q.pkgManager = p.pkgManager ∧ q.panicked = p.panicked ∧ q.sem = p.sem ∧
      q.wg = p.wg - 1 ∧ q.tasks = l1 ++ { t with pc := .finished } :: l2 := by
  simp only [step]
  rw [hts, get?_append_cons]
  simp only [hpc, setPC_append_cons]
  exact ⟨_, rfl, rfl, rfl, rfl, rfl, rfl, rfl⟩

theorem run_taskSteps (w : World) (p : Pool) (l1 l2 : List Task) (pkg : Package) (cb : Nat)
    (latest : List Char) (hts : p.tasks = l1 ++ ⟨pkg, some cb, .spawned⟩ :: l2)
    (hsem : p.sem = 0) (hmax : 0 < p.maxWorkers)
    (hret : processPackage w p.pkgManager pkg = .returned latest) :
    ∃ q, run p (taskSteps w l1.length) = some q ∧ q.maxWorkers = p.maxWorkers ∧
      q.pkgManager = p.pkgManager ∧ q.panicked = p.panicked ∧ q.sem = 0 ∧
      q.wg = p.wg - 1 ∧ q.tasks = l1 ++ ⟨pkg, some cb, .finished⟩ :: l2 := by
  obtain ⟨q1, s1, m1, g1, k1, e1, w1, t1⟩ :=
    step_acquire_ex p l1 l2 _ hts rfl (by omega)
  obtain ⟨q2, s2, m2, g2, k2, e2, w2, t2⟩ :=
    step_process_ex q1 l1 l2 _ w latest t1 rfl (by rw [g1]; exact hret)
  obtain ⟨q3, s3, m3, g3, k3, e3, w3, t3⟩ := step_count_ex q2 l1 l2 _ latest t2 rfl
  obtain ⟨q4, s4, m4, g4, k4, e4, w4, t4⟩ :=
    step_notify_ex q3 l1 l2 _ latest _ cb t3 rfl rfl
  obtain ⟨q5, s5, m5, g5, k5, e5, w5, t5⟩ :=
    step_release_ex q4 l1 l2 _ t4 rfl (by omega)
  obtain ⟨q6, s6, m6, g6, k6, e6, w6, t6⟩ := step_done_ex q5 l1 l2 _ t5 rfl
  refine ⟨q6, ?_, ?_, ?_, ?_, ?_, ?_, t6⟩
  · simp only [taskSteps, run, s1, s2, s3, s4, s5, s6]
  · rw [m6, m5, m4, m3, m2, m1]
  · rw [g6, g5, g4, g3, g2, g1]
  · rw [k6, k5, k4, k3, k2, k1]
  · omega
  · omega

theorem run_sequential_tasks (w : World) (cb : Nat) (rest : List Package) :
    ∀ (p : Pool) (l1 : List Task),
      p.tasks = l1 ++ rest.map (fun pkg => { pkg := pkg, callback := some cb, pc := .spawned }) →
      p.sem = 0 → 0 < p.maxWorkers →
      (∀ pkg ∈ rest, ∃ latest, processPackage w p.pkgManager pkg = .returned latest) →
      ∃ q, run p ((List.range' l1.length rest.length).flatMap (taskSteps w)) = some q ∧
        q.panicked = p.panicked ∧ q.wg = p.wg - rest.length := by
  induction rest with
  | nil =>
    intro p l1 _ _ _ _
    exact ⟨p, rfl, rfl, by simp⟩
  | cons pkg rest ih =>
    intro p l1 hts hsem hmax hret
    obtain ⟨latest, hl⟩ := hret pkg (List.mem_cons_self _ _)
    obtain ⟨q, hq, m, g, k, e, hw, ht⟩ :=
      run_taskSteps w p l1 _ pkg cb latest hts hsem hmax hl
    obtain ⟨r, hr, kr, wr⟩ := ih q (l1 ++ [⟨pkg, some cb, .finished⟩])
      (by rw [ht]; simp) e (by omega)
      (fun x hx => by rw [g]; exact hret x (List.mem_cons_of_mem _ hx))
    refine ⟨r, ?_, by rw [kr, k], ?_⟩
    · rw [List.length_cons, List.range'_succ, List.flatMap_cons, run_append, hq]
      simpa using hr
    · rw [wr, hw]; simp only [List.length_cons]; push_cast; ring

/-- For every list of packages, with at least one slot and lookups that return, the
sequential schedule submits exactly `packages`, no task panics and `Wait` can return at
its end. -/
theorem sequentialSchedule_completes (w : World) (maxWorkers : Nat)
    (pkgManager : PackageManager) (packages : List Package) (cb : Nat)
    (hmax : 0 < maxWorkers)
    (hret : ∀ pkg ∈ packages, ∃ latest, processPackage w pkgManager pkg = .returned latest) :
    submitted (sequentialSchedule w packages cb) = packages.map (fun pkg => (pkg, some cb)) ∧
      ∃ s, run (NewPool maxWorkers pkgManager) (sequentialSchedule w packages cb) = some s ∧
        s.panicked = false ∧ s.waitReturns := by
  constructor
  · unfold sequentialSchedule
    have h1 : ∀ (xs ys : List Action), submitted (xs ++ ys) = submitted xs ++ submitted ys := by
      intro xs ys
      induction xs with
      | nil => rfl
      | cons a rest ih => cases a <;> simp [submitted, ih]
    have h2 : submitted (ProcessPackages packages (some cb)) =
        packages.map (fun pkg => (pkg, some cb)) := by
      induction packages with
      | nil => rfl
      | cons pkg rest ih =>
        simp only [ProcessPackages, List.map_cons, submitted] at ih ⊢
        rw [ih (fun x hx => hret x (List.mem_cons_of_mem _ hx))]
    have h3 : ∀ (is : List Nat), submitted (is.flatMap (taskSteps w)) = [] := by
      intro is
      induction is with
      | nil => rfl
      | cons i rest ih => rw [List.flatMap_cons, h1, ih]; rfl
    rw [h1, h2, h3, List.append_nil]
  · obtain ⟨q, h1, m, e, hw, g, k, ht⟩ :=
      run_ProcessPackages (NewPool maxWorkers pkgManager) packages (some cb)
    obtain ⟨r, hr, kr, wr⟩ := run_sequential_tasks w cb packages q []
      (by rw [ht]; rfl) (by rw [e]; rfl) (by rw [m]; exact hmax)
      (fun x hx => by rw [g]; exact hret x hx)
    refine ⟨r, ?_, by rw [kr, k]; rfl, ?_⟩
    · unfold sequentialSchedule
      rw [run_append, h1]
      exact hr
    · show r.wg = 0
      rw [wr, hw]
      simp [NewPool]


/-! ## Claim on failed lookups -/

theorem processPackage_of_error {w : World} {pkgManager : PackageManager} {pkg : Package}
    {err : List Char} (h : getPackageInfo w pkgManager pkg = .error err) :
    processPackage w pkgManager pkg = .panicked := by
  unfold processPackage
  simp only [h, mapIndex]

theorem processPackage_of_no_distTags {w : World} {pkgManager : PackageManager}
    {pkg : Package} {fields : List (List Char × JSONValue)}
    (h : getPackageInfo w pkgManager pkg = .ok (some fields))
    (hd : fields.lookup "dist-tags".toList = none) :
    processPackage w pkgManager pkg = .panicked := by
  unfold processPackage
  simp only [h, mapIndex, hd, Option.getD]

theorem processPackage_of_no_latest {w : World} {pkgManager : PackageManager}
    {pkg : Package} {fields distTags : List (List Char × JSONValue)}
    (h : getPackageInfo w pkgManager pkg = .ok (some fields))
    (hd : fields.lookup "dist-tags".toList = some (.object distTags))
    (hl : distTags.lookup "latest".toList = none) :
    processPackage w pkgManager pkg = .returned [] := by
  unfold processPackage
  simp only [h, mapIndex, hd, hl, Option.getD]

/-- C4 (the code at the failing input): when the command fails for `left-pad`,
`getPackageInfo` returns an error and `processPackage` panics instead of returning the
empty string; the task ends without any callback invocation. -/
theorem processPackage_panics_on_failed_lookup :
    (∃ err, getPackageInfo failingWorld NPM ⟨"left-pad".toList, "1.3.0".toList⟩ = .error err) ∧
      processPackage failingWorld NPM ⟨"left-pad".toList, "1.3.0".toList⟩ = .panicked ∧
      (run (NewPool 2 NPM) failingSchedule).map (fun s => (s.panicked, s.calls)) =
        some (true, []) :=
  ⟨⟨_, rfl⟩, rfl, rfl⟩


/-! ## Where the arguments of a callback come from -/

theorem get?_setPC (ts : List Task) (j i : Nat) (pc : TaskPC) :
    (setPC ts j pc).get? i =
      if i = j then (ts.get? i).map (fun t => { t with pc := pc }) else ts.get? i := by
  induction ts generalizing i j with
  | nil => cases j <;> simp [setPC]
  | cons t ts ih =>
    cases j with
    | zero =>
      cases i with
      | zero => simp [setPC]
      | succ i => simp [setPC]
    | succ j =>
      cases i with
      | zero => simp [setPC]
      | succ i => simpa [setPC] using ih j i

theorem get?_append_singleton {ts : List Task} {u t : Task} {i : Nat}
    (h : (ts ++ [u]).get? i = some t) : ts.get? i = some t ∨ t = u := by
  induction ts generalizing i with
  | nil =>
    cases i with
    | zero => right; simpa using h.symm
    | succ i => simp at h
  | cons v vs ih =>
    cases i with
    | zero => left; simpa using h
    | succ i => simpa using ih (by simpa using h)

theorem get?_append_left {ts : List Task} {u t : Task} {i : Nat} (h : ts.get? i = some t) :
    (ts ++ [u]).get? i = some t := by
  induction ts generalizing i with
  | nil => simp at h
  | cons v vs ih =>
    cases i with
    | zero => simpa using h
    | succ i => simpa using ih (by simpa using h)

/-- The shapes a step can have: a submission, or a move of one task `t` at index `i` to
the program counter `pc`, which is a lookup, the increment of the counter, the call of the
callback, or a move that carries no looked-up version and makes no call. -/
theorem step_form {p q : Pool} {a : Action} (h : step p a = some q) :
    q.pkgManager = p.pkgManager ∧
      ((∃ pkg cb, q.tasks = p.tasks ++ [{ pkg := pkg, callback := cb, pc := .spawned }] ∧
          q.calls = p.calls) ∨
        ∃ i t pc, p.tasks.get? i = some t ∧ q.tasks = setPC p.tasks i pc ∧
          ((pc.lookedUp = none ∧ q.calls = p.calls) ∨
            (∃ w latest, a = .process i w ∧
              processPackage w p.pkgManager t.pkg = .returned latest ∧
              pc = .processed latest ∧ q.calls = p.calls) ∨
            (∃ latest n, t.pc = .processed latest ∧ pc = .counted latest n ∧
              q.calls = p.calls) ∨
            ∃ latest n cb, t.pc = .counted latest n ∧ t.callback = some cb ∧
              pc.lookedUp = none ∧
              q.calls = p.calls ++ [(cb, progressEvent t.pkg latest n)])) := by
  cases a with
  | spawn pkg cb =>
    simp only [step, Option.some.injEq] at h
    subst h
    exact ⟨rfl, Or.inl ⟨pkg, cb, rfl, rfl⟩⟩
  | acquire i =>
    simp only [step] at h
    split at h
    · rename_i t ht
      split at h
      · split at h
        · simp only [Option.some.injEq] at h; subst h
          exact ⟨rfl, Or.inr ⟨i, t, _, ht, rfl, Or.inl ⟨rfl, rfl⟩⟩⟩
        · cases h
      · cases h
    · cases h
  | process i w =>
    simp only [step] at h
    split at h
    · rename_i t ht
      split at h
      · split at h
        · rename_i latest hret
          simp only [Option.some.injEq] at h; subst h
          exact ⟨rfl, Or.inr ⟨i, t, _, ht, rfl, Or.inr (Or.inl ⟨w, latest, rfl, hret, rfl, rfl⟩)⟩⟩
        · simp only [Option.some.injEq] at h; subst h
          exact ⟨rfl, Or.inr ⟨i, t, _, ht, rfl, Or.inl ⟨rfl, rfl⟩⟩⟩
      · cases h
    · cases h
  | count i =>
    simp only [step] at h
    split at h
    · rename_i t ht
      split at h
      · rename_i latest hpc
        simp only [Option.some.injEq] at h; subst h
        exact ⟨rfl, Or.inr ⟨i, t, _, ht, rfl, Or.inr (Or.inr (Or.inl ⟨latest, _, hpc, rfl, rfl⟩))⟩⟩
      · cases h
    · cases h
  | notify i =>
    simp only [step] at h
    split at h
    · rename_i t ht
      split at h
      · rename_i latest n hpc
        split at h
        · rename_i cb hcb
          simp only [Option.some.injEq] at h; subst h
          exact ⟨rfl, Or.inr ⟨i, t, _, ht, rfl,
            Or.inr (Or.inr (Or.inr ⟨latest, n, cb, hpc, hcb, rfl, rfl⟩))⟩⟩
        · simp only [Option.some.injEq] at h; subst h
          exact ⟨rfl, Or.inr ⟨i, t, _, ht, rfl, Or.inl ⟨rfl, rfl⟩⟩⟩
      · cases h
    · cases h
  | release i =>
    simp only [step] at h
    split at h
    · rename_i t ht
      split at h
      · split at h
        · simp only [Option.some.injEq] at h; subst h
          exact ⟨rfl, Or.inr ⟨i, t, _, ht, rfl, Or.inl ⟨rfl, rfl⟩⟩⟩
        · cases h
      · cases h
    · cases h
  | done i =>
    simp only [step] at h
    split at h
    · rename_i t ht
      split at h
      · simp only [Option.some.injEq] at h; subst h
        exact ⟨rfl, Or.inr ⟨i, t, _, ht, rfl, Or.inl ⟨rfl, rfl⟩⟩⟩
      · cases h
    · cases h


theorem get?_setPC_stable {ts : List Task} {i j : Nat} {t : Task} (pc : TaskPC)
    (h : ts.get? i = some t) :
    ∃ u, (setPC ts j pc).get? i = some u ∧ u.pkg = t.pkg ∧ u.callback = t.callback := by
  rw [get?_setPC]
  by_cases hij : i = j
  · rw [if_pos hij, h]; exact ⟨_, rfl, rfl, rfl⟩
  · rw [if_neg hij]; exact ⟨t, h, rfl, rfl⟩

theorem step_get?_stable {p q : Pool} {a : Action} (h : step p a = some q) {i : Nat}
    {t : Task} (ht : p.tasks.get? i = some t) :
    ∃ u, q.tasks.get? i = some u ∧ u.pkg = t.pkg ∧ u.callback = t.callback := by
  rcases (step_form h).2 with ⟨pkg, cb, hts, _⟩ | ⟨j, tj, pc, _, hts, _⟩
  · rw [hts]; exact ⟨t, get?_append_left ht, rfl, rfl⟩
  · rw [hts]; exact get?_setPC_stable pc ht

theorem step_provenance {p q : Pool} {a : Action} {hist : List Action}
    (h : step p a = some q) (hp : Provenance p hist) : Provenance q (hist ++ [a]) := by
  obtain ⟨hm, hform⟩ := step_form h
  obtain ⟨P1, P2⟩ := hp
  have old_call : ∀ c ∈ p.calls, ∃ i w t, Action.process i w ∈ hist ++ [a] ∧
      q.tasks.get? i = some t ∧ t.callback = some c.1 ∧
      processPackage w q.pkgManager t.pkg = .returned c.2.latest ∧
      c.2 = progressEvent t.pkg c.2.latest c.2.count := by
    intro c hc
    obtain ⟨i, w, t, hw, hg, hcb, hr, he⟩ := P2 c hc
    obtain ⟨u, hu, hpkg, hcal⟩ := step_get?_stable h hg
    refine ⟨i, w, u, List.mem_append_left _ hw, hu, by rw [hcal]; exact hcb, ?_, ?_⟩
    · rw [hm, hpkg]; exact hr
    · rw [hpkg]; exact he
  rcases hform with ⟨pkg, cb, hts, hcalls⟩ | ⟨j, tj, pc, hj, hts, hkind⟩
  · refine ⟨?_, ?_⟩
    · intro i t latest hget hl
      rw [hts] at hget
      rcases get?_append_singleton hget with h0 | h0
      · obtain ⟨w, hw, hr⟩ := P1 i t latest h0 hl
        exact ⟨w, List.mem_append_left _ hw, by rw [hm]; exact hr⟩
      · rw [h0] at hl; cases hl
    · intro c hc
      rw [hcalls] at hc
      exact old_call c hc
  · refine ⟨?_, ?_⟩
    · intro i t latest hget hl
      rw [hts, get?_setPC] at hget
      by_cases hij : i = j
      · subst hij
        rw [if_pos rfl, hj] at hget
        simp only [Option.map_some', Option.some.injEq] at hget
        subst hget
        rcases hkind with ⟨hnone, _⟩ | ⟨w, latest0, ha, hret, hpc, _⟩ |
          ⟨latest0, n, hold, hpc, _⟩ | ⟨latest0, n, cb, _, _, hnone, _⟩
        · rw [show pc.lookedUp = none from hnone] at hl; cases hl
        · subst hpc
          simp only [TaskPC.lookedUp, Option.some.injEq] at hl
          subst hl
          exact ⟨w, by rw [ha]; simp, by rw [hm]; exact hret⟩
        · subst hpc
          simp only [TaskPC.lookedUp, Option.some.injEq] at hl
          subst hl
          obtain ⟨w, hw, hr⟩ := P1 i tj latest0 hj (by rw [hold]; rfl)
          exact ⟨w, List.mem_append_left _ hw, by rw [hm]; exact hr⟩
        · rw [show pc.lookedUp = none from hnone] at hl; cases hl
      · rw [if_neg hij] at hget
        obtain ⟨w, hw, hr⟩ := P1 i t latest hget hl
        exact ⟨w, List.mem_append_left _ hw, by rw [hm]; exact hr⟩
    · intro c hc
      rcases hkind with ⟨_, hcalls⟩ | ⟨_, _, _, _, _, hcalls⟩ | ⟨_, _, _, _, hcalls⟩ |
        ⟨latest0, n, cb, hold, hcb, _, hcalls⟩
      · rw [hcalls] at hc; exact old_call c hc
      · rw [hcalls] at hc; exact old_call c hc
      · rw [hcalls] at hc; exact old_call c hc
      · rw [hcalls] at hc
        rcases List.mem_append.mp hc with hc | hc
        · exact old_call c hc
        · rw [List.mem_singleton.mp hc]
          obtain ⟨w, hw, hr⟩ := P1 j tj latest0 hj (by rw [hold]; rfl)
          refine ⟨j, w, { tj with pc := pc }, List.mem_append_left _ hw, ?_, hcb, ?_, rfl⟩
          · rw [hts, get?_setPC, if_pos rfl, hj]; rfl
          · rw [hm]; exact hr

theorem run_provenance {p q : Pool} {acts hist : List Action} (h : run p acts = some q)
    (hp : Provenance p hist) : Provenance q (hist ++ acts) := by
  induction acts generalizing p hist with
  | nil =>
    simp only [run, Option.some.injEq] at h
    subst h; simpa using hp
  | cons a rest ih =>
    simp only [run] at h
    split at h
    · rename_i r hr
      have := ih h (step_provenance hr hp)
      simpa using this
    · cases h

theorem run_pkgManager {p q : Pool} {acts : List Action} (h : run p acts = some q) :
    q.pkgManager = p.pkgManager := by
  induction acts generalizing p with
  | nil =>
    simp only [run, Option.some.injEq] at h
    subst h; rfl
  | cons a rest ih =>
    simp only [run] at h
    split at h
    · rename_i r hr
      rw [ih h, (step_form hr).1]
    · cases h

/-- In every state a fresh pool can reach, each callback invocation was made by a task of
the pool with the name and declared version of its package, with the string
`processPackage` returned for that package in a `process` step of the schedule as latest
version, and with `isOutdated` true exactly when the declared version and that string
differ. -/
theorem calls_come_from_processPackage (maxWorkers : Nat) (pkgManager : PackageManager)
    (acts : List Action) (s : Pool)
    (hrun : run (NewPool maxWorkers pkgManager) acts = some s) :
    ∀ c ∈ s.calls, ∃ i w t, Action.process i w ∈ acts ∧ s.tasks.get? i = some t ∧
      t.callback = some c.1 ∧ processPackage w pkgManager t.pkg = .returned c.2.latest ∧
      c.2.pkgName = t.pkg.Name ∧ c.2.current = t.pkg.Version ∧
      (c.2.isOutdated = true ↔ t.pkg.Version ≠ c.2.latest) := by
  have h0 : Provenance (NewPool maxWorkers pkgManager) [] := by
    refine ⟨?_, ?_⟩
    · intro i t latest hget; simp [NewPool] at hget
    · intro c hc; simp [NewPool] at hc
  have hprov := run_provenance hrun h0
  have hm := run_pkgManager hrun
  intro c hc
  obtain ⟨i, w, t, hw, hg, hcb, hr, he⟩ := hprov.2 c hc
  refine ⟨i, w, t, by simpa using hw, hg, hcb, ?_, ?_, ?_, ?_⟩
  · rw [hm] at hr; exact hr
  · rw [he]; rfl
  · rw [he]; rfl
  · rw [he]; simp [progressEvent]


/-! ## Claim on the outdated flag and the table rows -/

/-- An invocation of the closure that runs without another one in between increments the
progress bar and, when the package is outdated, adds one to its counter and appends its
row, with the rendering of `FormatVersionComparison` or, when that fails, the latest
version as it is. -/
theorem callbackAlone_eq (caseTable : Char → Char) (task : Nat) (isDevDependency : Bool)
    (e : ProgressEvent) (r : Report) :
    callbackAlone caseTable 4 ⟨task, isDevDependency, e, .entered⟩ r =
      if e.isOutdated then
        if isDevDependency then
          { r with progress := r.progress + 1,
                   outdatedDev := atomicAddInt64 r.outdatedDev 1,
                   devDepRows := r.devDepRows ++ [[e.pkgName, e.current,
                     match FormatVersionComparison caseTable e.current e.latest with
                     | (formattedVersion, none) => formattedVersion
                     | (_, some _) => e.latest]] }
        else
          { r with progress := r.progress + 1,
                   outdated := atomicAddInt64 r.outdated 1,
                   depRows := r.depRows ++ [[e.pkgName, e.current,
                     match FormatVersionComparison caseTable e.current e.latest with
                     | (formattedVersion, none) => formattedVersion
                     | (_, some _) => e.latest]] }
      else { r with progress := r.progress + 1 } := by
  cases ho : e.isOutdated <;> cases isDevDependency <;>
    simp [callbackAlone, callbackStep, ho]

/-- When the second invocation of the callback starts only after the first has returned,
both packages are counted and both are listed. -/
theorem callbacks_in_turn_list_both (caseTable : Char → Char) :
    (programRun caseTable (mainProgram 2 NPM) inTurnSchedule).map
        (fun s => (s.pool.wg, s.report.outdated, s.report.depRows)) =
      some (0, 2, [upToDateRow "a".toList, upToDateRow "b".toList]) :=
  rfl

/-- C9 (the code at the failing input): the dependencies `a` and `b` are both declared as
`1.2.3` and the registry reports `v1.2.3` for both.  Each callback invocation gets
`isOutdated = true` although `getVersionDiff "1.2.3" "v1.2.3"` is `CurrentIsLatest`, and
both packages are counted.  The two invocations both read `depRows` before either assigns
it, so when `Wait` can return only the row of `b`, rendered as `1.2.3` in green followed by
`" (up to date)"`, is in the table: `a` is counted as outdated and not listed. -/
theorem callbacks_racing_lose_row (caseTable : Char → Char) :
    getVersionDiff caseTable "1.2.3".toList "v1.2.3".toList = (CurrentIsLatest, none) ∧
      (programRun caseTable (mainProgram 2 NPM) racingSchedule).map
          (fun s => (s.pool.calls.map
            (fun c => (c.2.pkgName, c.2.current, c.2.latest, c.2.isOutdated)))) =
        some [("a".toList, "1.2.3".toList, "v1.2.3".toList, true),
          ("b".toList, "1.2.3".toList, "v1.2.3".toList, true)] ∧
      (programRun caseTable (mainProgram 2 NPM) racingSchedule).map
          (fun s => (s.pool.wg, s.report.outdated, s.report.depRows)) =
        some (0, 2, [upToDateRow "b".toList]) :=
  ⟨rfl, rfl, rfl⟩

end CheckOutdatedDeps
